import Mathlib

/-!
Verification of the versioned artifact store, task queue and workflow status
resolver of the Vedic-clock video generation workflow repository.

The Python modules `src/utils/versioning.py`, `src/utils/queue_manager.py`
and `src/utils/workflow.py` are shallowly embedded below.  A page directory
is modelled as a `PageState`: the optional parsed content of `versions.json`
plus an association list of the other files (name, byte content), both over
`List Char`.  File system writes/renames/unlinks become pure updates of that
association list, and the atomic save of the metadata file becomes replacing
the `metaFile` field.  Timestamps (`datetime.now().isoformat()`) are passed
in as explicit `now` arguments, since their value never influences control
flow in the embedded code.
-/

/-- Strings are modelled as lists of characters so that splitting, stripping
and replacing (Python `str` operations used by the sources) can be reasoned
about structurally. -/
abbrev Str := List Char

/-- Conversion from Lean string literals to the character-list model. -/
def toL (s : String) : Str := s.toList

/-- Decimal digit character for a digit value (used to build `_v<n>` file
names exactly as Python string interpolation of an `int` does). -/
def digitChar (d : Nat) : Char :=
  if d = 0 then '0' else if d = 1 then '1' else if d = 2 then '2'
  else if d = 3 then '3' else if d = 4 then '4' else if d = 5 then '5'
  else if d = 6 then '6' else if d = 7 then '7' else if d = 8 then '8'
  else '9'

/-- Numeric value of a digit character. -/
def charDigit (c : Char) : Nat :=
  if c = '0' then 0 else if c = '1' then 1 else if c = '2' then 2
  else if c = '3' then 3 else if c = '4' then 4 else if c = '5' then 5
  else if c = '6' then 6 else if c = '7' then 7 else if c = '8' then 8
  else 9

/-- Helper for `natChars`: extract decimal digits with explicit fuel so that
the definition is structurally recursive (and therefore kernel-reducible). -/
def natCharsAux : Nat → Nat → Str
  | 0, _ => []
  | _ + 1, 0 => []
  | fuel + 1, n + 1 => natCharsAux fuel ((n + 1) / 10) ++ [digitChar ((n + 1) % 10)]

/-- Decimal rendering of a natural number, most significant digit first
(`natChars 0 = []`; ordinals in the store are always ≥ 1). -/
def natChars (n : Nat) : Str := natCharsAux n n

/-- Value of a digit string, most significant digit first. -/
def digitsVal (l : Str) : Nat := l.foldl (fun a c => 10 * a + charDigit c) 0

/-- The `_v<n>` version infix Python builds with an f-string. -/
def vchunk (n : Nat) : Str := '_' :: 'v' :: natChars n

/-- The canonical version file name `<base>_v<n><ext>`. -/
def fileNameV (base : Str) (n : Nat) (ext : Str) : Str := base ++ vchunk n ++ ext

/-- Python `content.split(chr(10))`: split a character list at newlines; the
result is always non-empty. -/
def splitNL : Str → List Str
  | [] => [[]]
  | c :: rest =>
    if c = '\n' then [] :: splitNL rest
    else
      match splitNL rest with
      | [] => [[c]]
      | l :: ls => (c :: l) :: ls

/-- Python `(chr(10)).join(lines)`. -/
def joinNL : List Str → Str
  | [] => []
  | [l] => l
  | l :: ls => l ++ '\n' :: joinNL ls

/-- The characters Python `str.strip()` removes by default. -/
def isPyWS (c : Char) : Bool :=
  c = ' ' || c = '\t' || c = '\n' || c = '\r' || c = '\x0b' || c = '\x0c'

/-- Python `str.strip()` on a character list. -/
def stripL (s : Str) : Str :=
  ((s.dropWhile isPyWS).reverse.dropWhile isPyWS).reverse

/-- Helper for `replaceL` with explicit fuel, so that the definition is
structurally recursive (and therefore kernel-reducible); the fuel only needs
to dominate the length of the string. -/
def replaceAux (pat new : Str) : Nat → Str → Str
  | 0, s => s
  | _ + 1, [] => []
  | fuel + 1, c :: rest =>
    if pat ≠ [] ∧ pat.isPrefixOf (c :: rest) then
      new ++ replaceAux pat new fuel (rest.drop (pat.length - 1))
    else
      c :: replaceAux pat new fuel rest

/-- Python `str.replace(pat, new)` on character lists: replace every
non-overlapping occurrence left to right (the sources only ever use
non-empty patterns; an empty pattern is treated as matching nowhere). -/
def replaceL (pat new : Str) (s : Str) : Str := replaceAux pat new s.length s

/-- One entry of a `versions` list in `versions.json`
(`{'file': ..., 'created': ..., 'model': ...}`). -/
structure VersionInfo where
  file : Str
  created : Str
  model : Option Str
deriving DecidableEq

/-- The per-kind record `{'latest': ..., 'versions': [...]}`; an empty
`latest` models both the empty string and `None`. -/
structure VHist where
  latest : Str
  versions : List VersionInfo
deriving DecidableEq

/-- The empty history a fresh kind starts with. -/
def emptyVH : VHist := ⟨[], []⟩

/-- Parsed `versions.json`: an association list from content-type key to its
history, in insertion order (Python dicts preserve insertion order). -/
abbrev Metadata := List (String × VHist)

/-- The files of a page directory other than `versions.json`, as an
association list from file name to byte content. -/
abbrev FileStore := List (Str × Str)

/-- A page directory: the optional `versions.json` plus the other files. -/
structure PageState where
  metaFile : Option Metadata
  files : FileStore
deriving DecidableEq

/-- Look a content type up in parsed metadata. -/
def lookupK (md : Metadata) (k : String) : Option VHist :=
  (md.find? (fun e => e.1 == k)).map Prod.snd

/-- Replace the history stored under an existing key (Python
`metadata[content_type] = ...` / in-place mutation of the entry; the
embedded operations only use it on keys present in the record). -/
def updateKind (md : Metadata) (k : String) (v : VHist) : Metadata :=
  md.map (fun e => if e.1 == k then (e.1, v) else e)

/-- Content of a file in the page directory, if present. -/
def lookupFile (fs : FileStore) (nm : Str) : Option Str :=
  (fs.find? (fun e => e.1 == nm)).map Prod.snd

/-- Python `Path.exists()` for a file of the page directory. -/
def existsFile (fs : FileStore) (nm : Str) : Bool :=
  (fs.find? (fun e => e.1 == nm)).isSome

/-- Python `write_text`/`write_bytes`/`shutil.copy2` target semantics:
overwrite the file if present, otherwise append it. -/
def writeFile (fs : FileStore) (nm c : Str) : FileStore :=
  if existsFile fs nm then fs.map (fun e => if e.1 == nm then (nm, c) else e)
  else fs ++ [(nm, c)]

/-- Python `Path.unlink()`. -/
def removeFile (fs : FileStore) (nm : Str) : FileStore :=
  fs.filter (fun e => e.1 != nm)

/-- The eight content types `load_version_metadata` guarantees
(`required_types` in versioning.py, in source order). -/
def requiredTypes : List String :=
  ["en_text", "hi_text", "en_audio", "hi_audio", "image", "image_video", "en_video", "hi_video"]

/-- Backfill for `load_version_metadata`: content types missing from a stored
record are added (empty) in `required_types` order, at the end, exactly as
inserting into a Python dict does. -/
def ensureRequired (md : Metadata) : Metadata :=
  md ++ (requiredTypes.filter (fun k => (lookupK md k).isNone)).map (fun k => (k, emptyVH))

/-- `load_version_metadata`: the default record when `versions.json` does not
exist, else the parsed record with missing required types backfilled. -/
def load_version_metadata (s : PageState) : Metadata :=
  match s.metaFile with
  | none => requiredTypes.map (fun k => (k, emptyVH))
  | some md => ensureRequired md

/-- `save_version_metadata`: atomically replace `versions.json`. -/
def save_version_metadata (s : PageState) (md : Metadata) : PageState :=
  { s with metaFile := some md }

/-- The `content_type` dispatch of `create_new_version`: base name, extension
and binary-ness of the six metadata-tracked kinds; `None` models the
`ValueError` raised for every other kind (including the two page-video
kinds). -/
def kindInfo (t : String) : Option (Str × Str × Bool) :=
  if t = "en_text" then some (toL "final_text_en", toL ".txt", false)
  else if t = "hi_text" then some (toL "final_text_hi", toL ".txt", false)
  else if t = "en_audio" then some (toL "final_text_en", toL ".mp3", true)
  else if t = "hi_audio" then some (toL "final_text_hi", toL ".mp3", true)
  else if t = "image" then some (toL "image_to_use", toL ".png", false)
  else if t = "image_video" then some (toL "page_image_video", toL ".mp4", true)
  else none

/-- `create_new_version`: appends a fresh version record with ordinal
`len(versions) + 1`, materialises the content under the canonical name and
sets `latest`.  The first component is `none` when the Python function
raises `ValueError` (unknown content type); for binary kinds the `content`
argument stands for the bytes of the source file `shutil.copy2` copies. -/
def create_new_version (s : PageState) (t : String) (content : Str)
    (mdl : Option Str) (now : Str) : Option Str × PageState :=
  let md := load_version_metadata s
  match kindInfo t with
  | none => (none, s)
  | some (base, ext, _isBin) =>
    let vs := ((lookupK md t).getD emptyVH).versions
    let nextVersion := vs.length + 1
    let newFilename := fileNameV base nextVersion ext
    let files' := writeFile s.files newFilename content
    let vi : VersionInfo := ⟨newFilename, now, mdl⟩
    let md' := updateKind md t ⟨newFilename, vs ++ [vi]⟩
    (some newFilename, save_version_metadata ⟨s.metaFile, files'⟩ md')

/-- `get_latest_version_path`: resolves the `latest` pointer; `none` when it
is empty or the kind is absent. -/
def get_latest_version_path (s : PageState) (t : String) : Option Str :=
  match lookupK (load_version_metadata s) t with
  | none => none
  | some vh => if vh.latest = [] then none else some vh.latest

/-- `get_all_versions`. -/
def get_all_versions (s : PageState) (t : String) : List VersionInfo :=
  ((lookupK (load_version_metadata s) t).getD emptyVH).versions

/-- `get_version_count`. -/
def get_version_count (s : PageState) (t : String) : Nat :=
  (get_all_versions s t).length

/-- Ordinal parsed out of a version file name: the maximal digit run at the
end of the stem (the name up to its last dot), which must be non-empty and
preceded by `_v` — the shape `re.search(r'_v(\d+)\.<ext>$')` accepts. -/
def parseOrdName (nm : Str) : Option Nat :=
  let r := nm.reverse
  let afterDot := r.dropWhile (fun c => c ≠ '.')
  match afterDot with
  | [] => none
  | _ :: stemR =>
    let dsR := stemR.takeWhile Char.isDigit
    let restR := stemR.drop dsR.length
    if dsR = [] then none
    else if (toL "v_").isPrefixOf restR then some (digitsVal dsR.reverse)
    else none

/-- One file of the `page_video_*_v*.mp4` scan in
`get_latest_version_number`: glob match on `<base>_v*.mp4` followed by the
regex extraction of the trailing ordinal. -/
def videoOrd (base : Str) (nm : Str) : Option Nat :=
  if (base ++ toL "_v").isPrefixOf nm ∧ (toL ".mp4").isSuffixOf nm then parseOrdName nm
  else none

/-- The maximum scanned video ordinal (0 when no file matches). -/
def scanMaxOrdinal (fs : FileStore) (base : Str) : Nat :=
  fs.foldl (fun mx e => match videoOrd base e.1 with | some n => max mx n | none => mx) 0

/-- `get_latest_version_number`: for the two page-video kinds the ordinal is
scanned from loose files on disk; for every other kind it is the version
count. -/
def get_latest_version_number (s : PageState) (t : String) : Nat :=
  if t = "en_video" ∨ t = "hi_video" then
    scanMaxOrdinal s.files (if t = "en_video" then toL "page_video_en" else toL "page_video_hi")
  else get_version_count s t

/-- `set_as_latest` (restore): point `latest` at the file of a historical
ordinal without touching `versions`. -/
def set_as_latest (s : PageState) (t : String) (versionNumber : Nat) : Bool × PageState :=
  let md := load_version_metadata s
  match lookupK md t with
  | none => (false, s)
  | some vh =>
    if versionNumber < 1 ∨ versionNumber > vh.versions.length then (false, s)
    else
      let vi := vh.versions.getD (versionNumber - 1) ⟨[], [], none⟩
      (true, save_version_metadata s (updateKind md t ⟨vi.file, vh.versions⟩))

/-- The base-name/extension dispatch inside `fast_forward_version` (all
eight kinds; any other kind makes the function return `False`). -/
def ffInfo (t : String) : Option (Str × Str) :=
  if t = "en_text" then some (toL "final_text_en", toL ".txt")
  else if t = "hi_text" then some (toL "final_text_hi", toL ".txt")
  else if t = "en_audio" then some (toL "final_text_en", toL ".mp3")
  else if t = "hi_audio" then some (toL "final_text_hi", toL ".mp3")
  else if t = "en_video" then some (toL "page_video_en", toL ".mp4")
  else if t = "hi_video" then some (toL "page_video_hi", toL ".mp4")
  else if t = "image" then some (toL "image_to_use", toL ".png")
  else if t = "image_video" then some (toL "page_image_video", toL ".mp4")
  else none

/-- The body of the `for version in range(current + 1, target + 1)` loop of
`fast_forward_version`: write a copy of the source bytes under the next
canonical name and append the metadata record, updating `latest`. -/
def ffStep (base ext src now mdl : Str) (acc : FileStore × VHist) (v : Nat) :
    FileStore × VHist :=
  let fn := fileNameV base v ext
  (writeFile acc.1 fn src, ⟨fn, acc.2.versions ++ [⟨fn, now, some mdl⟩]⟩)

/-- `fast_forward_version`: copy the current latest file forward into every
ordinal from `current + 1` to `target`.  The Python loop re-reads
`latest_path` each iteration, but no iteration ever changes the bytes found
there (a write to `latest_path` itself would write back the bytes just
read), so reading the source once is extensionally identical. -/
def fast_forward_version (s : PageState) (t : String) (target : Nat)
    (mdl now : Str) : Bool × PageState :=
  let current := get_latest_version_number s t
  if current = 0 then (false, s)
  else if target ≤ current then (false, s)
  else
    let latestPathOpt : Option Str :=
      if t = "en_video" ∨ t = "hi_video" then
        let b := if t = "en_video" then toL "page_video_en" else toL "page_video_hi"
        let p := fileNameV b current (toL ".mp4")
        if existsFile s.files p then some p else none
      else
        match get_latest_version_path s t with
        | none => none
        | some p => if existsFile s.files p then some p else none
    match latestPathOpt with
    | none => (false, s)
    | some lp =>
      match ffInfo t with
      | none => (false, s)
      | some (base, ext) =>
        let md := load_version_metadata s
        let md := if (lookupK md t).isSome then md else md ++ [(t, emptyVH)]
        let src := (lookupFile s.files lp).getD []
        let init : FileStore × VHist := (s.files, (lookupK md t).getD emptyVH)
        let res := (List.range' (current + 1) (target - current)).foldl
          (ffStep base ext src now mdl) init
        (true, save_version_metadata ⟨s.metaFile, res.1⟩ (updateKind md t res.2))

/-- `delete_version`: refuse deleting the sole version, an out-of-range
ordinal, an unknown kind, or the current latest; otherwise unlink the file
and pop the record. -/
def delete_version (s : PageState) (t : String) (versionNumber : Nat) : Bool × PageState :=
  let md := load_version_metadata s
  match lookupK md t with
  | none => (false, s)
  | some vh =>
    if vh.versions.length ≤ 1 then (false, s)
    else if versionNumber < 1 ∨ versionNumber > vh.versions.length then (false, s)
    else
      let vi := vh.versions.getD (versionNumber - 1) ⟨[], [], none⟩
      if vi.file = vh.latest then (false, s)
      else
        let files' := removeFile s.files vi.file
        let md' := updateKind md t ⟨vh.latest, vh.versions.eraseIdx (versionNumber - 1)⟩
        (true, save_version_metadata ⟨s.metaFile, files'⟩ md')

/-- The legacy flat files `migrate_legacy_files` adopts, in source order. -/
def legacyFiles : List (String × Str × Str × Str) :=
  [("en_text", toL "final_text_en.txt", toL "final_text_en", toL ".txt"),
   ("hi_text", toL "final_text_hi.txt", toL "final_text_hi", toL ".txt"),
   ("en_audio", toL "final_text_en.mp3", toL "final_text_en", toL ".mp3"),
   ("hi_audio", toL "final_text_hi.mp3", toL "final_text_hi", toL ".mp3"),
   ("image", toL "image_to_use.png", toL "image_to_use", toL ".png")]

/-- One iteration of the migration loop: if the legacy file exists and the
kind has no versions yet, rename it to `_v1` and record it. -/
def migrateOne (now : Str) (acc : FileStore × Metadata)
    (e : String × Str × Str × Str) : FileStore × Metadata :=
  let (t, legacyName, base, ext) := e
  match lookupFile acc.1 legacyName with
  | none => acc
  | some content =>
    let vh := (lookupK acc.2 t).getD emptyVH
    if vh.versions.length = 0 then
      let v1 := fileNameV base 1 ext
      let files' := writeFile (removeFile acc.1 legacyName) v1 content
      let vi : VersionInfo := ⟨v1, now, some (toL "unknown (migrated)")⟩
      (files', updateKind acc.2 t ⟨v1, vh.versions ++ [vi]⟩)
    else acc

/-- `migrate_legacy_files`: adopt pre-versioning flat files as `_v1` and —
unconditionally — save the metadata record (the Python function calls
`save_version_metadata` even when nothing was migrated).  The recorded
`created` timestamp (file mtime in Python) is the `now` argument. -/
def migrate_legacy_files (s : PageState) (now : Str) : PageState :=
  let md := load_version_metadata s
  let res := legacyFiles.foldl (migrateOne now) (s.files, md)
  save_version_metadata ⟨s.metaFile, res.1⟩ res.2

/-- The `patterns` table of `cleanup_old_versions`: anchored base pattern
(the extension in the table is never consulted when matching). -/
def cleanupBase (t : String) : Option Str :=
  if t = "en_text" then some (toL "final_text_en")
  else if t = "hi_text" then some (toL "final_text_hi")
  else if t = "en_audio" then some (toL "final_text_en")
  else if t = "hi_audio" then some (toL "final_text_hi")
  else if t = "image" then some (toL "image_to_use")
  else if t = "image_video" then some (toL "page_image_video")
  else if t = "en_video" then some (toL "page_video_en")
  else if t = "hi_video" then some (toL "page_video_hi")
  else none

/-- `cleanup_old_versions`: delete every file whose name merely starts with
the kind's base pattern (`re.match` is anchored) except the recorded
`latest`, and truncate the kind's `versions` to the records equal to
`latest`.  Returns the number of files deleted. -/
def cleanup_old_versions (s : PageState) (t : String) : Nat × PageState :=
  let md := load_version_metadata s
  match lookupK md t with
  | none => (0, s)
  | some vh =>
    match cleanupBase t with
    | none => (0, s)
    | some basePat =>
      let keep : List Str := if vh.latest = [] then [] else [vh.latest]
      let doomed := fun (nm : Str) => basePat.isPrefixOf nm ∧ ¬ nm ∈ keep
      let deletedCount := (s.files.filter (fun e => doomed e.1)).length
      let files' := s.files.filter (fun e => ¬ doomed e.1)
      let md' := updateKind md t ⟨vh.latest, vh.versions.filter (fun vi => vi.file == vh.latest)⟩
      (deletedCount, save_version_metadata ⟨s.metaFile, files'⟩ md')

/-- A queue directory: prompt/task files as (name, content) pairs. -/
abbrev TaskDir := List (Str × Str)

/-- `queue_image_edit_prompt`: file name `image_edit_prompt_for_v<n>.txt`. -/
def editPromptName (targetVersion : Nat) : Str :=
  toL "image_edit_prompt_for_v" ++ natChars targetVersion ++ toL ".txt"

/-- `queue_image_to_video_prompt`: file name
`image_to_video_prompt_for_v<n>.txt`. -/
def videoPromptName (targetVersion : Nat) : Str :=
  toL "image_to_video_prompt_for_v" ++ natChars targetVersion ++ toL ".txt"

/-- The content `queue_image_edit_prompt` writes: three `#`-prefixed metadata
lines (the last one `# Status: PENDING`), a blank line, the prompt, and a
trailing newline. -/
def editPromptContent (targetVersion : Nat) (now p : Str) : Str :=
  toL "# Image Edit Prompt for v" ++ natChars targetVersion ++
  toL "\x0a# Queued at: " ++ now ++
  toL "\x0a# Status: PENDING\x0a\x0a" ++ p ++ ['\n']

/-- `queue_image_edit_prompt`: persist the prompt with metadata. -/
def queue_image_edit_prompt (d : TaskDir) (p : Str) (targetVersion : Nat)
    (now : Str) : Str × TaskDir :=
  let nm := editPromptName targetVersion
  (nm, writeFile d nm (editPromptContent targetVersion now p))

/-- `queue_image_to_video_prompt`: persist only the bare prompt text. -/
def queue_image_to_video_prompt (d : TaskDir) (p : Str) (targetVersion : Nat) :
    Str × TaskDir :=
  let nm := videoPromptName targetVersion
  (nm, writeFile d nm p)

/-- Lexicographic comparison of names by code point, as Python `sorted` on
paths inside one directory orders them. -/
def lexLe : Str → Str → Bool
  | [], _ => true
  | _ :: _, [] => false
  | a :: as, b :: bs => if a = b then lexLe as bs else decide (a < b)

/-- Insertion into a sorted name list. -/
def insertName (x : Str) : List Str → List Str
  | [] => [x]
  | y :: ys => if lexLe x y then x :: y :: ys else y :: insertName x ys

/-- Sorting of name lists (`sorted(page_dir.glob(pattern))`). -/
def sortNames : List Str → List Str
  | [] => []
  | x :: xs => insertName x (sortNames xs)

/-- Glob `<pre>*.txt` used by `get_queued_prompts`: the name must start with
the fixed stem, end in `.txt`, and be long enough that stem and suffix do
not overlap. -/
def globTxt (pre : Str) (nm : Str) : Bool :=
  pre.isPrefixOf nm && (toL ".txt").isSuffixOf nm && decide (pre.length + 4 ≤ nm.length)

/-- The glob stem for each `prompt_type`; `none` models the raised
`ValueError`. -/
def promptStem (promptType : String) : Option Str :=
  if promptType = "image_edit" then some (toL "image_edit_prompt_for_v")
  else if promptType = "image_to_video" then some (toL "image_to_video_prompt_for_v")
  else none

/-- `get_queued_prompts`: the sorted names matching the type's glob. -/
def get_queued_prompts (d : TaskDir) (promptType : String) : Option (List Str) :=
  match promptStem promptType with
  | none => none
  | some pre => some (sortNames ((d.map Prod.fst).filter (globTxt pre)))

/-- The `# Status: <X>` markers the queue manager rewrites. -/
def statusPending : Str := toL "# Status: PENDING"

/-- The PROCESSING marker. -/
def statusProcessing : Str := toL "# Status: PROCESSING"

/-- The COMPLETED marker. -/
def statusCompleted : Str := toL "# Status: COMPLETED"

/-- The FAILED marker. -/
def statusFailed : Str := toL "# Status: FAILED"

/-- `mark_prompt_as_processing`: replace the PENDING marker and append a
processing-start line; `False` (state unchanged) when the file cannot be
read. -/
def mark_prompt_as_processing (d : TaskDir) (nm : Str) (now : Str) : Bool × TaskDir :=
  match lookupFile d nm with
  | none => (false, d)
  | some content =>
    let content' := replaceL statusPending statusProcessing content ++
      toL "\x0a# Processing started: " ++ now ++ ['\n']
    (true, writeFile d nm content')

/-- `Path.with_suffix` for the rename-based archiving: replace everything
from the last dot on (append when the name has no dot). -/
def withSuffix (nm newSuf : Str) : Str :=
  let r := nm.reverse
  let pre := r.takeWhile (fun c => c ≠ '.')
  if pre.length = r.length then nm ++ newSuf
  else (r.drop (pre.length + 1)).reverse ++ newSuf

/-- `mark_prompt_as_completed`: rewrite the status markers, append a
completion line, and rename the file to `<stem>.txt.completed`. -/
def mark_prompt_as_completed (d : TaskDir) (nm : Str) (now : Str) : Bool × TaskDir :=
  match lookupFile d nm with
  | none => (false, d)
  | some content =>
    let content' :=
      replaceL statusPending statusCompleted
        (replaceL statusProcessing statusCompleted content) ++
      toL "\x0a# Completed at: " ++ now ++ ['\n']
    (true, writeFile (removeFile d nm) (withSuffix nm (toL ".txt.completed")) content')

/-- `mark_prompt_as_failed`: rewrite the status markers, append failure and
error lines, and rename the file to `<stem>.txt.failed`. -/
def mark_prompt_as_failed (d : TaskDir) (nm : Str) (err now : Str) : Bool × TaskDir :=
  match lookupFile d nm with
  | none => (false, d)
  | some content =>
    let content' :=
      replaceL statusPending statusFailed
        (replaceL statusProcessing statusFailed content) ++
      toL "\x0a# Failed at: " ++ now ++ ['\n'] ++
      toL "# Error: " ++ err ++ ['\n']
    (true, writeFile (removeFile d nm) (withSuffix nm (toL ".txt.failed")) content')

/-- The line filter of `read_prompt_from_file`'s metadata branch: keep lines
that are non-blank and whose stripped form does not start with a hash. -/
def keptLine (l : Str) : Bool :=
  !(['#'].isPrefixOf (stripL l)) && !(stripL l).isEmpty

/-- The body of `read_prompt_from_file` once the file has been read: strip,
then either parse the `#`-metadata format or return the bare prompt. -/
def readPromptContent (content : Str) : Str :=
  let c := stripL content
  if ['#'].isPrefixOf c then stripL (joinNL ((splitNL c).filter keptLine))
  else c

/-- `read_prompt_from_file`: `None` when the file does not exist. -/
def read_prompt_from_file (d : TaskDir) (nm : Str) : Option Str :=
  match lookupFile d nm with
  | none => none
  | some content => some (readPromptContent content)

/-- Observable status of a task file under the on-disk format of §6 of the
spec (`# Status: <X>` metadata lines): the payload of the first line
carrying the marker, if any. -/
def statusLine (l : Str) : Option Str :=
  if (toL "# Status: ").isPrefixOf l then some (l.drop 10) else none

/-- Status parsed from a whole task file. -/
def taskStatus (content : Str) : Option Str :=
  (splitNL content).findSome? statusLine

/-- The per-page maximum of `get_latest_version_number` over the four
text/audio kinds, as the first pass of the `rewritten` stage of
`get_workflow_status` computes it (workflow.py lines 77-92). -/
def pageMaxTextAudio (s : PageState) : Nat :=
  max (max (get_latest_version_number s "en_text") (get_latest_version_number s "hi_text"))
    (max (get_latest_version_number s "en_audio") (get_latest_version_number s "hi_audio"))

/-- The expected-version computation of the `rewritten` stage of
`get_workflow_status`: for every page directory first run
`migrate_legacy_files`, then fold the per-page maxima; returns the expected
version together with the page states as the pass leaves them. -/
def rewrittenExpectedVersion (pages : List PageState) (now : Str) :
    Nat × List PageState :=
  pages.foldl
    (fun acc p =>
      let p' := migrate_legacy_files p now
      (max acc.1 (pageMaxTextAudio p'), acc.2 ++ [p']))
    (0, [])

/-- Reachability by valid `create_version` / `fast_forward` calls from an
empty page directory (no `versions.json`, no files), the setting of the
ordinal-density property. -/
inductive Reachable : PageState → Prop
  | init : Reachable ⟨none, []⟩
  | create (s : PageState) (t : String) (content : Str) (mdl : Option Str) (now : Str) :
      Reachable s → Reachable (create_new_version s t content mdl now).2
  | ff (s : PageState) (t : String) (target : Nat) (mdl now : Str) :
      Reachable s → Reachable (fast_forward_version s t target mdl now).2


theorem find?_update_self {nm c : Str} (fs : FileStore)
    (hex : (fs.find? (fun e => e.1 == nm)).isSome = true) :
    ((fs.map (fun e => if e.1 == nm then (nm, c) else e)).find? (fun e => e.1 == nm))
      = some (nm, c) := by
  induction fs with
  | nil => simp at hex
  | cons e fs ih =>
    simp only [List.map_cons]
    by_cases h : e.1 = nm
    · rw [show (if (e.1 == nm) = true then (nm, c) else e) = (nm, c) by simp [h]]
      rw [List.find?_cons_of_pos _ (by simp)]
    · rw [show (if (e.1 == nm) = true then (nm, c) else e) = e by simp [h]]
      rw [List.find?_cons_of_neg _ (by simpa using h)]
      rw [List.find?_cons_of_neg _ (by simpa using h)] at hex
      exact ih hex

theorem find?_update_ne {nm c nm' : Str} (fs : FileStore) (h : nm' ≠ nm) :
    ((fs.map (fun e => if e.1 == nm then (nm, c) else e)).find? (fun e => e.1 == nm'))
      = fs.find? (fun e => e.1 == nm') := by
  induction fs with
  | nil => simp
  | cons e fs ih =>
    simp only [List.map_cons]
    by_cases he : e.1 = nm
    · rw [show (if (e.1 == nm) = true then (nm, c) else e) = (nm, c) by simp [he]]
      rw [List.find?_cons_of_neg _ (by simpa using Ne.symm h),
        List.find?_cons_of_neg _ (by simp [he, Ne.symm h]), ih]
    · rw [show (if (e.1 == nm) = true then (nm, c) else e) = e by simp [he]]
      by_cases he' : e.1 = nm'
      · rw [List.find?_cons_of_pos _ (by simpa using he'),
          List.find?_cons_of_pos _ (by simpa using he')]
      · rw [List.find?_cons_of_neg _ (by simpa using he'),
          List.find?_cons_of_neg _ (by simpa using he'), ih]

theorem lookupFile_writeFile_self (fs : FileStore) (nm c : Str) :
    lookupFile (writeFile fs nm c) nm = some c := by
  unfold writeFile
  split
  · rename_i hex
    unfold lookupFile
    rw [find?_update_self fs hex]
    rfl
  · rename_i hex
    unfold lookupFile
    rw [List.find?_append]
    unfold existsFile at hex
    rw [Option.not_isSome_iff_eq_none] at hex
    rw [hex]
    simp [List.find?]

theorem lookupFile_writeFile_ne (fs : FileStore) (nm c nm' : Str) (h : nm' ≠ nm) :
    lookupFile (writeFile fs nm c) nm' = lookupFile fs nm' := by
  unfold writeFile
  split
  · unfold lookupFile
    rw [find?_update_ne fs h]
  · unfold lookupFile
    rw [List.find?_append]
    have : List.find? (fun e => e.1 == nm') [(nm, c)] = none := by
      rw [List.find?_cons_of_neg _ (by simpa using Ne.symm h)]
      rfl
    rw [this, Option.or_none]

theorem lookupK_updateKind_self (md : Metadata) (k : String) (v : VHist)
    (h : (lookupK md k).isSome = true) :
    lookupK (updateKind md k v) k = some v := by
  unfold lookupK updateKind at *
  induction md with
  | nil => simp at h
  | cons e md ih =>
    simp only [List.map_cons]
    by_cases he : e.1 = k
    · rw [show (if (e.1 == k) = true then (e.1, v) else e) = (e.1, v) by simp [he]]
      rw [List.find?_cons_of_pos _ (by simp [he])]
      simp
    · rw [show (if (e.1 == k) = true then (e.1, v) else e) = e by simp [he]]
      rw [List.find?_cons_of_neg _ (by simpa using he)]
      rw [List.find?_cons_of_neg _ (by simpa using he)] at h
      exact ih h

theorem lookupK_updateKind_ne (md : Metadata) (k : String) (v : VHist) (k' : String)
    (h : k' ≠ k) :
    lookupK (updateKind md k v) k' = lookupK md k' := by
  unfold lookupK updateKind
  induction md with
  | nil => simp
  | cons e md ih =>
    simp only [List.map_cons]
    by_cases he : e.1 = k
    · rw [show (if (e.1 == k) = true then (e.1, v) else e) = (e.1, v) by simp [he]]
      rw [List.find?_cons_of_neg _ (by simp [he, Ne.symm h]),
        List.find?_cons_of_neg _ (by simp [he, Ne.symm h])]
      exact ih
    · rw [show (if (e.1 == k) = true then (e.1, v) else e) = e by simp [he]]
      by_cases he' : e.1 = k'
      · rw [List.find?_cons_of_pos _ (by simp [he']),
          List.find?_cons_of_pos _ (by simp [he'])]
      · rw [List.find?_cons_of_neg _ (by simpa using he'),
          List.find?_cons_of_neg _ (by simpa using he')]
        exact ih

theorem isSome_lookupK_updateKind (md : Metadata) (k : String) (v : VHist) (k' : String) :
    (lookupK (updateKind md k v) k').isSome = (lookupK md k').isSome := by
  by_cases h : k' = k
  · subst h
    cases hl : lookupK md k' with
    | none =>
      unfold lookupK updateKind at *
      induction md with
      | nil => simp
      | cons e md ih =>
        simp only [List.map_cons]
        by_cases he : e.1 = k'
        · exfalso
          rw [List.find?_cons_of_pos _ (by simp [he])] at hl
          simp at hl
        · rw [show (if (e.1 == k') = true then (e.1, v) else e) = e by simp [he]]
          rw [List.find?_cons_of_neg _ (by simpa using he)]
          rw [List.find?_cons_of_neg _ (by simpa using he)] at hl
          exact ih hl
    | some vh =>
      rw [lookupK_updateKind_self md k' v (by simp [hl])]
      simp [hl]
  · rw [lookupK_updateKind_ne md k v k' h]

/-- A metadata record that carries all eight required content types. -/
def reqComplete (md : Metadata) : Prop :=
  ∀ k ∈ requiredTypes, (lookupK md k).isSome = true

theorem ensureRequired_eq_self (md : Metadata) (h : reqComplete md) :
    ensureRequired md = md := by
  unfold ensureRequired
  have : requiredTypes.filter (fun k => (lookupK md k).isNone) = [] := by
    rw [List.filter_eq_nil_iff]
    intro k hk
    have := h k hk
    simp [Option.isNone_iff_eq_none]
    exact Option.isSome_iff_exists.mp this |>.elim (fun v hv => by simp [hv])
  rw [this]
  simp

theorem lookupK_keyList (ks : List String) (k : String) (h : k ∈ ks) :
    (lookupK (ks.map (fun k => (k, emptyVH))) k).isSome = true := by
  induction ks with
  | nil => simp at h
  | cons a ks ih =>
    unfold lookupK
    simp only [List.map_cons]
    by_cases ha : a = k
    · rw [List.find?_cons_of_pos _ (by simp [ha])]
      simp
    · rw [List.find?_cons_of_neg _ (by simpa using ha)]
      rcases List.mem_cons.mp h with h' | h'
      · exact absurd h'.symm ha
      · exact ih h'

theorem reqComplete_load (s : PageState) : reqComplete (load_version_metadata s) := by
  intro k hk
  unfold load_version_metadata
  cases s.metaFile with
  | none => exact lookupK_keyList requiredTypes k hk
  | some md =>
    unfold ensureRequired lookupK
    rw [List.find?_append]
    cases hfind : List.find? (fun e => e.1 == k) md with
    | some e => simp
    | none =>
      simp only [Option.none_or]
      have hnone : lookupK md k = none := by
        unfold lookupK
        rw [hfind]
        rfl
      have hmem : k ∈ requiredTypes.filter (fun k => (lookupK md k).isNone) := by
        rw [List.mem_filter]
        exact ⟨hk, by simp [hnone]⟩
      have := lookupK_keyList (requiredTypes.filter (fun k => (lookupK md k).isNone)) k hmem
      unfold lookupK at this
      simpa using this

theorem reqComplete_updateKind (md : Metadata) (k : String) (v : VHist)
    (h : reqComplete md) : reqComplete (updateKind md k v) := by
  intro k' hk'
  rw [isSome_lookupK_updateKind]
  exact h k' hk'

theorem load_save (s : PageState) (md : Metadata) (h : reqComplete md) :
    load_version_metadata (save_version_metadata s md) = md := by
  unfold load_version_metadata save_version_metadata
  simp only
  exact ensureRequired_eq_self md h

theorem load_save' (fs : FileStore) (md : Metadata)
    (h : reqComplete md) :
    load_version_metadata ⟨some md, fs⟩ = md := by
  unfold load_version_metadata
  exact ensureRequired_eq_self md h

theorem charDigit_digitChar (d : Nat) (h : d < 10) : charDigit (digitChar d) = d := by
  interval_cases d <;> decide

theorem isDigit_digitChar (d : Nat) (h : d < 10) : (digitChar d).isDigit = true := by
  interval_cases d <;> decide

theorem foldl_digits (ds : List Nat) (h : ∀ d ∈ ds, d < 10) (a : Nat) :
    List.foldl (fun acc c => 10 * acc + charDigit c) a ((ds.reverse).map digitChar)
      = a * 10 ^ ds.length + Nat.ofDigits 10 ds := by
  induction ds generalizing a with
  | nil => simp [Nat.ofDigits]
  | cons d tl ih =>
    simp only [List.reverse_cons, List.map_append, List.map_cons, List.map_nil,
      List.foldl_append, List.foldl_cons, List.foldl_nil]
    rw [ih (fun x hx => h x (List.mem_cons_of_mem d hx)) a]
    rw [charDigit_digitChar d (h d (List.mem_cons_self d tl))]
    rw [Nat.ofDigits_cons]
    simp only [List.length_cons, pow_succ]
    ring

theorem natCharsAux_eq_digits (fuel n : Nat) (h : n ≤ fuel) :
    natCharsAux fuel n = ((Nat.digits 10 n).reverse).map digitChar := by
  induction fuel generalizing n with
  | zero =>
    interval_cases n
    simp [natCharsAux]
  | succ fuel ih =>
    cases n with
    | zero => simp [natCharsAux]
    | succ m =>
      rw [show natCharsAux (fuel + 1) (m + 1)
          = natCharsAux fuel ((m + 1) / 10) ++ [digitChar ((m + 1) % 10)] from rfl]
      rw [ih ((m + 1) / 10)
        (by have := Nat.div_lt_self (Nat.succ_pos m) (by norm_num : 1 < 10); omega)]
      rw [show Nat.digits 10 (m + 1) = ((m + 1) % 10) :: Nat.digits 10 ((m + 1) / 10) from
        Nat.digits_def' (by norm_num : 1 < 10) (Nat.succ_pos m)]
      simp only [List.reverse_cons, List.map_append, List.map_cons, List.map_nil]

theorem natChars_eq_digits (n : Nat) :
    natChars n = ((Nat.digits 10 n).reverse).map digitChar :=
  natCharsAux_eq_digits n n (le_refl n)

theorem digitsVal_natChars (n : Nat) : digitsVal (natChars n) = n := by
  unfold digitsVal
  rw [natChars_eq_digits]
  rw [foldl_digits (Nat.digits 10 n) (fun d hd => Nat.digits_lt_base (by norm_num) hd) 0]
  simp [Nat.ofDigits_digits]

theorem natChars_injective (m n : Nat) (h : natChars m = natChars n) : m = n := by
  have := congrArg digitsVal h
  rwa [digitsVal_natChars, digitsVal_natChars] at this

theorem natChars_ne_nil (n : Nat) (h : 1 ≤ n) : natChars n ≠ [] := by
  rw [natChars_eq_digits]
  simp only [ne_eq, List.map_eq_nil_iff, List.reverse_eq_nil_iff]
  exact Nat.digits_ne_nil_iff_ne_zero.mpr (by omega)

theorem natChars_all_digit (n : Nat) : ∀ c ∈ natChars n, c.isDigit = true := by
  intro c hc
  rw [natChars_eq_digits] at hc
  rcases List.mem_map.mp hc with ⟨d, hd, rfl⟩
  exact isDigit_digitChar d (Nat.digits_lt_base (by norm_num) (List.mem_reverse.mp hd))

theorem digit_ne_special (c : Char) (h : c.isDigit = true) :
    c ≠ '#' ∧ c ≠ '\n' ∧ c ≠ '.' ∧ c ≠ '_' ∧ c ≠ 'v' ∧ isPyWS c = false := by
  have hx : ∀ x : Char, x.isDigit = false → c ≠ x := by
    intro x hdx he
    subst he
    rw [h] at hdx
    exact Bool.noConfusion hdx
  refine ⟨hx '#' (by decide), hx '\n' (by decide), hx '.' (by decide),
    hx '_' (by decide), hx 'v' (by decide), ?_⟩
  simp [isPyWS, hx ' ' (by decide), hx '\t' (by decide), hx '\n' (by decide),
    hx '\r' (by decide), hx '\x0b' (by decide), hx '\x0c' (by decide)]

theorem fileNameV_inj_ord (base ext : Str) (m n : Nat) :
    fileNameV base m ext = fileNameV base n ext → m = n := by
  intro h
  unfold fileNameV vchunk at h
  rw [List.append_assoc, List.append_assoc] at h
  have h1 := List.append_cancel_left h
  rw [List.cons_append, List.cons_append, List.cons_append, List.cons_append] at h1
  injection h1 with h1a h1'
  injection h1' with h1b h1''
  exact natChars_injective m n (List.append_cancel_right h1'')

/-- C7: for every content unit, kind and ordinal `k` with
`1 ≤ k ≤ len(versions)`, `set_as_latest` returns true and sets `latest` to
the file of ordinal `k`'s record while changing nothing else: the version
list (hence every record and the version count) and every file on disk are
unchanged. -/
theorem restore_sets_latest_only (s : PageState) (t : String) (n : Nat) (vh : VHist)
    (hvh : lookupK (load_version_metadata s) t = some vh)
    (h1 : 1 ≤ n) (h2 : n ≤ vh.versions.length) :
    set_as_latest s t n =
      (true, save_version_metadata s (updateKind (load_version_metadata s) t
        ⟨(vh.versions.getD (n - 1) ⟨[], [], none⟩).file, vh.versions⟩)) ∧
    (set_as_latest s t n).2.files = s.files ∧
    get_all_versions (set_as_latest s t n).2 t = vh.versions ∧
    get_version_count (set_as_latest s t n).2 t = vh.versions.length ∧
    ((lookupK (load_version_metadata (set_as_latest s t n).2) t).getD emptyVH).latest
      = (vh.versions.getD (n - 1) ⟨[], [], none⟩).file := by
  have heq : set_as_latest s t n =
      (true, save_version_metadata s (updateKind (load_version_metadata s) t
        ⟨(vh.versions.getD (n - 1) ⟨[], [], none⟩).file, vh.versions⟩)) := by
    simp only [set_as_latest]
    rw [hvh]
    simp only
    rw [if_neg (by omega)]
  refine ⟨heq, ?_, ?_, ?_, ?_⟩
  · rw [heq]
    rfl
  · rw [heq]
    unfold get_all_versions
    rw [load_save _ _ (reqComplete_updateKind _ _ _ (reqComplete_load s))]
    rw [lookupK_updateKind_self _ _ _ (by simp [hvh])]
    rfl
  · rw [heq]
    unfold get_version_count get_all_versions
    rw [load_save _ _ (reqComplete_updateKind _ _ _ (reqComplete_load s))]
    rw [lookupK_updateKind_self _ _ _ (by simp [hvh])]
    rfl
  · rw [heq]
    simp only
    rw [load_save _ _ (reqComplete_updateKind _ _ _ (reqComplete_load s))]
    rw [lookupK_updateKind_self _ _ _ (by simp [hvh])]
    rfl

/-- Witness for C7 at a concrete two-version store. -/
theorem restore_sets_latest_only_witness :
    (set_as_latest
      ⟨some [("en_text", ⟨toL "final_text_en_v2.txt",
        [⟨toL "final_text_en_v1.txt", toL "t1", none⟩,
         ⟨toL "final_text_en_v2.txt", toL "t2", none⟩]⟩)], []⟩
      "en_text" 1).2.files = [] := by
  have h := restore_sets_latest_only
    ⟨some [("en_text", ⟨toL "final_text_en_v2.txt",
      [⟨toL "final_text_en_v1.txt", toL "t1", none⟩,
       ⟨toL "final_text_en_v2.txt", toL "t2", none⟩]⟩)], []⟩
    "en_text" 1
    ⟨toL "final_text_en_v2.txt",
      [⟨toL "final_text_en_v1.txt", toL "t1", none⟩,
       ⟨toL "final_text_en_v2.txt", toL "t2", none⟩]⟩
    (by decide) (by decide) (by decide)
  exact h.2.1

/-- C8: every refused mutation is atomic.  A `set_as_latest` call with an
unknown kind or out-of-range ordinal, and a `delete_version` call refused
for any reason (unknown kind, out-of-range ordinal, sole version, or the
version being `latest`) returns false with the page state — the persisted
metadata file and every version file — exactly as it was: the metadata file
is never written on these paths. -/
theorem refused_mutations_atomic (s : PageState) (t : String) (n : Nat) :
    (lookupK (load_version_metadata s) t = none → set_as_latest s t n = (false, s)) ∧
    (∀ vh, lookupK (load_version_metadata s) t = some vh →
      (n < 1 ∨ n > vh.versions.length) → set_as_latest s t n = (false, s)) ∧
    (lookupK (load_version_metadata s) t = none → delete_version s t n = (false, s)) ∧
    (∀ vh, lookupK (load_version_metadata s) t = some vh →
      (vh.versions.length ≤ 1 ∨ n < 1 ∨ n > vh.versions.length) →
      delete_version s t n = (false, s)) ∧
    (∀ vh, lookupK (load_version_metadata s) t = some vh →
      1 ≤ n → n ≤ vh.versions.length →
      (vh.versions.getD (n - 1) ⟨[], [], none⟩).file = vh.latest →
      delete_version s t n = (false, s)) := by
  refine ⟨?_, ?_, ?_, ?_, ?_⟩
  · intro h
    simp only [set_as_latest]
    rw [h]
  · intro vh h hr
    simp only [set_as_latest]
    rw [h]
    simp only
    rw [if_pos hr]
  · intro h
    simp only [delete_version]
    rw [h]
  · intro vh h hr
    simp only [delete_version]
    rw [h]
    simp only
    rcases hr with hr | hr
    · rw [if_pos hr]
    · by_cases hlen : vh.versions.length ≤ 1
      · rw [if_pos hlen]
      · rw [if_neg hlen, if_pos hr]
  · intro vh h h1 h2 hfile
    simp only [delete_version]
    rw [h]
    simp only
    by_cases hlen : vh.versions.length ≤ 1
    · rw [if_pos hlen]
    · rw [if_neg hlen, if_neg (by omega), if_pos hfile]

/-- Witness for C8 at a concrete store: deleting the latest of two versions
is refused and leaves the state unchanged. -/
theorem refused_mutations_atomic_witness :
    delete_version
      ⟨some [("en_text", ⟨toL "final_text_en_v2.txt",
        [⟨toL "final_text_en_v1.txt", toL "t1", none⟩,
         ⟨toL "final_text_en_v2.txt", toL "t2", none⟩]⟩)],
       [(toL "final_text_en_v1.txt", toL "a"), (toL "final_text_en_v2.txt", toL "b")]⟩
      "en_text" 2 =
    (false,
      ⟨some [("en_text", ⟨toL "final_text_en_v2.txt",
        [⟨toL "final_text_en_v1.txt", toL "t1", none⟩,
         ⟨toL "final_text_en_v2.txt", toL "t2", none⟩]⟩)],
       [(toL "final_text_en_v1.txt", toL "a"), (toL "final_text_en_v2.txt", toL "b")]⟩) := by
  exact (refused_mutations_atomic _ "en_text" 2).2.2.2.2
    ⟨toL "final_text_en_v2.txt",
      [⟨toL "final_text_en_v1.txt", toL "t1", none⟩,
       ⟨toL "final_text_en_v2.txt", toL "t2", none⟩]⟩
    (by decide) (by decide) (by decide) (by decide)

/-- C3: `delete_version` on the sole remaining version or on the version
whose file equals `latest` returns false and leaves the metadata record and
all version files unchanged; on any other in-range version it removes
exactly that one record and deletes exactly that one file, decreasing the
version count by 1 and leaving `latest` and every other record unchanged
(the surviving list is `eraseIdx (k-1)` of the old one). -/
theorem delete_version_protection (s : PageState) (t : String) (n : Nat) (vh : VHist)
    (hvh : lookupK (load_version_metadata s) t = some vh) :
    (vh.versions.length ≤ 1 → delete_version s t n = (false, s)) ∧
    (1 ≤ n → n ≤ vh.versions.length →
      (vh.versions.getD (n - 1) ⟨[], [], none⟩).file = vh.latest →
      delete_version s t n = (false, s)) ∧
    (2 ≤ vh.versions.length → 1 ≤ n → n ≤ vh.versions.length →
      (vh.versions.getD (n - 1) ⟨[], [], none⟩).file ≠ vh.latest →
      delete_version s t n =
        (true, ⟨some (updateKind (load_version_metadata s) t
            ⟨vh.latest, vh.versions.eraseIdx (n - 1)⟩),
          removeFile s.files (vh.versions.getD (n - 1) ⟨[], [], none⟩).file⟩) ∧
      get_version_count (delete_version s t n).2 t = vh.versions.length - 1 ∧
      get_all_versions (delete_version s t n).2 t = vh.versions.eraseIdx (n - 1) ∧
      ((lookupK (load_version_metadata (delete_version s t n).2) t).getD emptyVH).latest
        = vh.latest) := by
  refine ⟨?_, ?_, ?_⟩
  · intro hlen
    exact (refused_mutations_atomic s t n).2.2.2.1 vh hvh (Or.inl hlen)
  · intro h1 h2 hfile
    exact (refused_mutations_atomic s t n).2.2.2.2 vh hvh h1 h2 hfile
  · intro hlen h1 h2 hfile
    have heq : delete_version s t n =
        (true, ⟨some (updateKind (load_version_metadata s) t
            ⟨vh.latest, vh.versions.eraseIdx (n - 1)⟩),
          removeFile s.files (vh.versions.getD (n - 1) ⟨[], [], none⟩).file⟩) := by
      simp only [delete_version]
      rw [hvh]
      simp only
      rw [if_neg (by omega), if_neg (by omega), if_neg hfile]
      rfl
    refine ⟨heq, ?_, ?_, ?_⟩
    · rw [heq]
      unfold get_version_count get_all_versions
      rw [load_save' _ _ (reqComplete_updateKind _ _ _ (reqComplete_load s))]
      rw [lookupK_updateKind_self _ _ _ (by simp [hvh])]
      simp only [Option.getD_some]
      exact List.length_eraseIdx_of_lt (by omega)
    · rw [heq]
      unfold get_all_versions
      rw [load_save' _ _ (reqComplete_updateKind _ _ _ (reqComplete_load s))]
      rw [lookupK_updateKind_self _ _ _ (by simp [hvh])]
      rfl
    · rw [heq]
      simp only
      rw [load_save' _ _ (reqComplete_updateKind _ _ _ (reqComplete_load s))]
      rw [lookupK_updateKind_self _ _ _ (by simp [hvh])]
      rfl

/-- Witness for C3 at a concrete three-version store with `latest` restored
to ordinal 1: deleting ordinal 2 succeeds and erases exactly that record and
file. -/
theorem delete_version_protection_witness :
    get_version_count (delete_version
      ⟨some [("en_text", ⟨toL "final_text_en_v1.txt",
        [⟨toL "final_text_en_v1.txt", toL "t1", none⟩,
         ⟨toL "final_text_en_v2.txt", toL "t2", none⟩,
         ⟨toL "final_text_en_v3.txt", toL "t3", none⟩]⟩)],
       [(toL "final_text_en_v1.txt", toL "a"),
        (toL "final_text_en_v2.txt", toL "b"),
        (toL "final_text_en_v3.txt", toL "c")]⟩
      "en_text" 2).2 "en_text" = 2 := by
  have h := (delete_version_protection
    ⟨some [("en_text", ⟨toL "final_text_en_v1.txt",
      [⟨toL "final_text_en_v1.txt", toL "t1", none⟩,
       ⟨toL "final_text_en_v2.txt", toL "t2", none⟩,
       ⟨toL "final_text_en_v3.txt", toL "t3", none⟩]⟩)],
     [(toL "final_text_en_v1.txt", toL "a"),
      (toL "final_text_en_v2.txt", toL "b"),
      (toL "final_text_en_v3.txt", toL "c")]⟩
    "en_text" 2
    ⟨toL "final_text_en_v1.txt",
      [⟨toL "final_text_en_v1.txt", toL "t1", none⟩,
       ⟨toL "final_text_en_v2.txt", toL "t2", none⟩,
       ⟨toL "final_text_en_v3.txt", toL "t3", none⟩]⟩
    (by decide)).2.2 (by decide) (by decide) (by decide) (by decide)
  exact h.2.1

theorem dropWhile_all_stop {p : Char → Bool} (l1 : Str) (a : Char) (l2 : Str)
    (h1 : ∀ x ∈ l1, p x = true) (ha : p a = false) :
    (l1 ++ a :: l2).dropWhile p = a :: l2 := by
  induction l1 with
  | nil => simp [List.dropWhile, ha]
  | cons x xs ih =>
    simp only [List.cons_append, List.dropWhile]
    rw [h1 x (List.mem_cons_self x xs)]
    exact ih (fun y hy => h1 y (List.mem_cons_of_mem x hy))

theorem takeWhile_all_stop {p : Char → Bool} (l1 : Str) (a : Char) (l2 : Str)
    (h1 : ∀ x ∈ l1, p x = true) (ha : p a = false) :
    (l1 ++ a :: l2).takeWhile p = l1 := by
  induction l1 with
  | nil => simp [List.takeWhile, ha]
  | cons x xs ih =>
    simp only [List.cons_append, List.takeWhile]
    rw [h1 x (List.mem_cons_self x xs)]
    simp only [List.cons.injEq, true_and]
    exact ih (fun y hy => h1 y (List.mem_cons_of_mem x hy))

theorem parseOrdName_canonical (b et : Str) (n : Nat) (hn : 1 ≤ n)
    (het : ∀ c ∈ et, c ≠ '.') :
    parseOrdName (fileNameV b n ('.' :: et)) = some n := by
  have hrev : (b ++ ('_' :: 'v' :: natChars n) ++ '.' :: et).reverse
      = et.reverse ++ '.' :: ((natChars n).reverse ++ 'v' :: '_' :: b.reverse) := by
    simp [List.reverse_append]
  have h1 : List.dropWhile (fun c : Char => c ≠ '.')
      (et.reverse ++ '.' :: ((natChars n).reverse ++ 'v' :: '_' :: b.reverse))
      = '.' :: ((natChars n).reverse ++ 'v' :: '_' :: b.reverse) :=
    dropWhile_all_stop _ _ _
      (fun x hx => by simpa using het x (List.mem_reverse.mp hx)) (by simp)
  have h2 : List.takeWhile Char.isDigit ((natChars n).reverse ++ 'v' :: '_' :: b.reverse)
      = (natChars n).reverse :=
    takeWhile_all_stop _ _ _
      (fun x hx => natChars_all_digit n x (List.mem_reverse.mp hx)) (by decide)
  unfold parseOrdName fileNameV vchunk
  simp only [hrev, h1, h2, List.drop_left]
  rw [if_neg (by simpa using natChars_ne_nil n hn)]
  rw [if_pos (by simp [toL, List.isPrefixOf])]
  rw [List.reverse_reverse, digitsVal_natChars]

theorem kindInfo_parse (t : String) (base ext : Str) (isBin : Bool)
    (hk : kindInfo t = some (base, ext, isBin)) (n : Nat) (hn : 1 ≤ n) :
    parseOrdName (fileNameV base n ext) = some n := by
  unfold kindInfo at hk
  split_ifs at hk <;>
    (injection hk with hk
     simp only [Prod.mk.injEq] at hk
     obtain ⟨hb, he, hbin⟩ := hk
     subst hb
     subst he
     exact parseOrdName_canonical _ _ _ hn (by decide))

/-- C4 counterexample: `create_new_version` refuses the kind `en_video`
although it belongs to the fixed set of eight asset kinds — the raised
`ValueError` (modelled by the `none` result) is not limited to kinds
outside that set. -/
theorem create_rejects_en_video :
    (create_new_version ⟨none, []⟩ "en_video" (toL "x") none (toL "t")).1 = none ∧
    "en_video" ∈ requiredTypes := by
  constructor
  · rfl
  · decide

/-- C4 amended: `create_new_version` raises exactly when the kind is not one
of the six metadata-tracked kinds (`en_text`, `hi_text`, `en_audio`,
`hi_audio`, `image`, `image_video`); in particular the two
composed-page-video kinds of the fixed eight-kind set also raise.  For each
of the six kinds it succeeds, writing the content under the canonical file
name, appending a record whose parsed ordinal is
`len(existing versions) + 1`, and setting `latest` to the new file. -/
theorem create_new_version_amended (s : PageState) (t : String) (content : Str)
    (mdl : Option Str) (now : Str) :
    ((create_new_version s t content mdl now).1 = none ↔ kindInfo t = none) ∧
    (kindInfo t = none → (create_new_version s t content mdl now).2 = s) ∧
    (∀ base ext isBin, kindInfo t = some (base, ext, isBin) →
      (create_new_version s t content mdl now).1 =
        some (fileNameV base ((get_all_versions s t).length + 1) ext) ∧
      get_all_versions (create_new_version s t content mdl now).2 t =
        get_all_versions s t ++
          [⟨fileNameV base ((get_all_versions s t).length + 1) ext, now, mdl⟩] ∧
      ((lookupK (load_version_metadata (create_new_version s t content mdl now).2) t).getD emptyVH).latest =
        fileNameV base ((get_all_versions s t).length + 1) ext ∧
      parseOrdName (fileNameV base ((get_all_versions s t).length + 1) ext) =
        some ((get_all_versions s t).length + 1) ∧
      lookupFile (create_new_version s t content mdl now).2.files
        (fileNameV base ((get_all_versions s t).length + 1) ext) = some content) := by
  refine ⟨?_, ?_, ?_⟩
  · constructor
    · intro h
      cases hk : kindInfo t with
      | none => rfl
      | some v =>
        obtain ⟨base, ext, isBin⟩ := v
        simp only [create_new_version, hk] at h
        exact Option.noConfusion h
    · intro h
      simp only [create_new_version, h]
  · intro h
    simp only [create_new_version, h]
  · intro base ext isBin hk
    have hin : t ∈ requiredTypes := by
      unfold kindInfo at hk
      split_ifs at hk with e1 e2 e3 e4 e5 e6
      · subst e1; decide
      · subst e2; decide
      · subst e3; decide
      · subst e4; decide
      · subst e5; decide
      · subst e6; decide
    have hsome : (lookupK (load_version_metadata s) t).isSome = true :=
      reqComplete_load s t hin
    have heq : create_new_version s t content mdl now =
        (some (fileNameV base ((get_all_versions s t).length + 1) ext),
          ⟨some (updateKind (load_version_metadata s) t
            ⟨fileNameV base ((get_all_versions s t).length + 1) ext,
              get_all_versions s t ++
                [⟨fileNameV base ((get_all_versions s t).length + 1) ext, now, mdl⟩]⟩),
            writeFile s.files
              (fileNameV base ((get_all_versions s t).length + 1) ext) content⟩) := by
      simp only [create_new_version, hk, get_all_versions]
      rfl
    refine ⟨?_, ?_, ?_, ?_, ?_⟩
    · rw [heq]
    · rw [heq]
      unfold get_all_versions
      rw [load_save' _ _ (reqComplete_updateKind _ _ _ (reqComplete_load s))]
      rw [lookupK_updateKind_self _ _ _ hsome]
      rfl
    · rw [heq]
      simp only
      rw [load_save' _ _ (reqComplete_updateKind _ _ _ (reqComplete_load s))]
      rw [lookupK_updateKind_self _ _ _ hsome]
      rfl
    · exact kindInfo_parse t base ext isBin hk _ (by omega)
    · rw [heq]
      simp only
      exact lookupFile_writeFile_self _ _ _

/-- Witness for C4's amended theorem at a fresh store. -/
theorem create_new_version_amended_witness :
    (create_new_version ⟨none, []⟩ "en_text" (toL "Hello") (some (toL "m1")) (toL "t1")).1 =
      some (toL "final_text_en_v1.txt") := by
  have h := ((create_new_version_amended ⟨none, []⟩ "en_text" (toL "Hello")
    (some (toL "m1")) (toL "t1")).2.2 (toL "final_text_en") (toL ".txt") false (by rfl)).1
  rw [h]
  decide

theorem lookupFile_filter (q : Str → Bool) (fs : FileStore) (nm : Str) :
    lookupFile (fs.filter (fun e => q e.1)) nm =
      if q nm then lookupFile fs nm else none := by
  induction fs with
  | nil => simp [lookupFile]
  | cons e fs ih =>
    by_cases hq : q e.1
    · rw [List.filter_cons_of_pos (by simpa using hq)]
      by_cases he : e.1 = nm
      · unfold lookupFile
        rw [List.find?_cons_of_pos _ (by simpa using he),
          List.find?_cons_of_pos _ (by simpa using he)]
        rw [if_pos (he ▸ hq)]
      · unfold lookupFile at ih ⊢
        rw [List.find?_cons_of_neg _ (by simpa using he),
          List.find?_cons_of_neg _ (by simpa using he)]
        exact ih
    · rw [List.filter_cons_of_neg (by simpa using hq)]
      by_cases he : e.1 = nm
      · have hqnm : ¬ q nm = true := by rw [← he]; exact hq
        rw [ih, if_neg hqnm, if_neg hqnm]
      · rw [ih]
        by_cases hqnm : q nm = true
        · rw [if_pos hqnm, if_pos hqnm]
          unfold lookupFile
          rw [List.find?_cons_of_neg _ (by simpa using he)]
        · rw [if_neg hqnm, if_neg hqnm]

/-- C9: `cleanup_old_versions` on a text kind deletes from disk every file
whose name merely begins with the shared base prefix and is not that text
kind's recorded `latest` — in particular every narrated-audio version file
`<base>_v<n>.mp3` — while only the text kind's metadata entry is truncated
to the records equal to `latest`; the audio kind's metadata entry is left
exactly as it was, still referencing the deleted files.  The statement
covers `en_text`/`en_audio` and symmetrically `hi_text`/`hi_audio`. -/
theorem cleanup_deletes_shared_basename (s : PageState)
    (kText kAudio : String) (base : Str)
    (hk : (kText = "en_text" ∧ kAudio = "en_audio" ∧ base = toL "final_text_en") ∨
          (kText = "hi_text" ∧ kAudio = "hi_audio" ∧ base = toL "final_text_hi")) :
    ∀ vh, lookupK (load_version_metadata s) kText = some vh →
    ((cleanup_old_versions s kText).2.files =
        s.files.filter (fun e =>
          ¬ (base.isPrefixOf e.1 ∧ ¬ e.1 ∈ (if vh.latest = [] then ([] : List Str) else [vh.latest]))) ∧
      (∀ nm, base.isPrefixOf nm → nm ≠ vh.latest →
        lookupFile (cleanup_old_versions s kText).2.files nm = none) ∧
      (∀ n, fileNameV base n (toL ".mp3") ≠ vh.latest →
        lookupFile (cleanup_old_versions s kText).2.files (fileNameV base n (toL ".mp3")) = none) ∧
      lookupK (load_version_metadata (cleanup_old_versions s kText).2) kText =
        some ⟨vh.latest, vh.versions.filter (fun vi => vi.file == vh.latest)⟩ ∧
      lookupK (load_version_metadata (cleanup_old_versions s kText).2) kAudio =
        lookupK (load_version_metadata s) kAudio) := by
  intro vh hvh
  have hne : kAudio ≠ kText := by
    rcases hk with ⟨h1, h2, _⟩ | ⟨h1, h2, _⟩ <;> (subst h1; subst h2; decide)
  have hbase : cleanupBase kText = some base := by
    rcases hk with ⟨h1, _, h3⟩ | ⟨h1, _, h3⟩ <;> (subst h1; subst h3; rfl)
  have heq : cleanup_old_versions s kText =
      ((s.files.filter (fun e =>
          base.isPrefixOf e.1 ∧ ¬ e.1 ∈ (if vh.latest = [] then ([] : List Str) else [vh.latest]))).length,
        ⟨some (updateKind (load_version_metadata s) kText
            ⟨vh.latest, vh.versions.filter (fun vi => vi.file == vh.latest)⟩),
          s.files.filter (fun e =>
            ¬ (base.isPrefixOf e.1 ∧ ¬ e.1 ∈ (if vh.latest = [] then ([] : List Str) else [vh.latest])))⟩) := by
    simp only [cleanup_old_versions, hvh, hbase]
    rfl
  refine ⟨?_, ?_, ?_, ?_, ?_⟩
  · rw [heq]
  · intro nm hpre hnl
    rw [heq]
    simp only
    rw [lookupFile_filter
      (fun nm => decide (¬ (base.isPrefixOf nm ∧ ¬ nm ∈ (if vh.latest = [] then ([] : List Str) else [vh.latest])))) s.files nm]
    rw [if_neg ?_]
    simp only [decide_eq_true_eq, not_not]
    constructor
    · exact hpre
    · intro hmem
      split at hmem
      · simp at hmem
      · simp at hmem
        exact hnl hmem
  · intro n hnl
    rw [heq]
    simp only
    rw [lookupFile_filter
      (fun nm => decide (¬ (base.isPrefixOf nm ∧ ¬ nm ∈ (if vh.latest = [] then ([] : List Str) else [vh.latest])))) s.files _]
    rw [if_neg ?_]
    simp only [decide_eq_true_eq, not_not]
    constructor
    · unfold fileNameV
      rw [List.append_assoc]
      rw [List.isPrefixOf_iff_prefix]
      exact List.prefix_append base _
    · intro hmem
      split at hmem
      · simp at hmem
      · simp at hmem
        exact hnl hmem
  · rw [heq]
    simp only
    rw [load_save' _ _ (reqComplete_updateKind _ _ _ (reqComplete_load s))]
    rw [lookupK_updateKind_self _ _ _ (by simp [hvh])]
  · rw [heq]
    simp only
    rw [load_save' _ _ (reqComplete_updateKind _ _ _ (reqComplete_load s))]
    rw [lookupK_updateKind_ne _ _ _ _ hne]

/-- Witness for C9: a store holding text v1/v2 (latest v2) and audio v1 for
`en_text`; cleanup of `en_text` deletes `final_text_en_v1.txt` and the audio
file `final_text_en_v1.mp3` while the `en_audio` metadata is untouched. -/
theorem cleanup_deletes_shared_basename_witness :
    lookupFile (cleanup_old_versions
      ⟨some [("en_text", ⟨toL "final_text_en_v2.txt",
          [⟨toL "final_text_en_v1.txt", toL "t1", none⟩,
           ⟨toL "final_text_en_v2.txt", toL "t2", none⟩]⟩),
        ("en_audio", ⟨toL "final_text_en_v1.mp3",
          [⟨toL "final_text_en_v1.mp3", toL "t3", none⟩]⟩)],
       [(toL "final_text_en_v1.txt", toL "a"),
        (toL "final_text_en_v2.txt", toL "b"),
        (toL "final_text_en_v1.mp3", toL "audio")]⟩
      "en_text").2.files (toL "final_text_en_v1.mp3") = none := by
  have h := cleanup_deletes_shared_basename
    ⟨some [("en_text", ⟨toL "final_text_en_v2.txt",
        [⟨toL "final_text_en_v1.txt", toL "t1", none⟩,
         ⟨toL "final_text_en_v2.txt", toL "t2", none⟩]⟩),
      ("en_audio", ⟨toL "final_text_en_v1.mp3",
        [⟨toL "final_text_en_v1.mp3", toL "t3", none⟩]⟩)],
     [(toL "final_text_en_v1.txt", toL "a"),
      (toL "final_text_en_v2.txt", toL "b"),
      (toL "final_text_en_v1.mp3", toL "audio")]⟩
    "en_text" "en_audio" (toL "final_text_en")
    (Or.inl ⟨rfl, rfl, rfl⟩)
    ⟨toL "final_text_en_v2.txt",
      [⟨toL "final_text_en_v1.txt", toL "t1", none⟩,
       ⟨toL "final_text_en_v2.txt", toL "t2", none⟩]⟩
    (by decide)
  exact h.2.1 (toL "final_text_en_v1.mp3") (by decide) (by decide)

theorem ffLoop_spec (base ext src now mdl : Str) (d : Nat) :
    ∀ (a : Nat) (fs : FileStore) (vh : VHist),
    (((List.range' a d).foldl (ffStep base ext src now mdl) (fs, vh)).2.versions
        = vh.versions ++ (List.range' a d).map
            (fun j => (⟨fileNameV base j ext, now, some mdl⟩ : VersionInfo))) ∧
    (1 ≤ d → ((List.range' a d).foldl (ffStep base ext src now mdl) (fs, vh)).2.latest
        = fileNameV base (a + d - 1) ext) ∧
    (∀ nm, (∀ j, a ≤ j → j < a + d → nm ≠ fileNameV base j ext) →
      lookupFile (((List.range' a d).foldl (ffStep base ext src now mdl) (fs, vh)).1) nm
        = lookupFile fs nm) ∧
    (∀ j, a ≤ j → j < a + d →
      lookupFile (((List.range' a d).foldl (ffStep base ext src now mdl) (fs, vh)).1)
        (fileNameV base j ext) = some src) := by
  induction d with
  | zero =>
    intro a fs vh
    refine ⟨by simp, by omega, fun nm _ => by simp, fun j h1 h2 => by omega⟩
  | succ d ih =>
    intro a fs vh
    have hcons : List.range' a (d + 1) = a :: List.range' (a + 1) d := by
      simpa using List.range'_succ a d 1
    have hstep : ffStep base ext src now mdl (fs, vh) a
        = (writeFile fs (fileNameV base a ext) src,
            ⟨fileNameV base a ext, vh.versions ++ [⟨fileNameV base a ext, now, some mdl⟩]⟩) := rfl
    refine ⟨?_, ?_, ?_, ?_⟩
    · rw [hcons]
      simp only [List.foldl_cons, hstep]
      rw [(ih (a + 1) _ _).1]
      simp [List.map_cons]
    · intro _
      rw [hcons]
      simp only [List.foldl_cons, hstep]
      cases d with
      | zero =>
        simp only [List.range'_zero, List.foldl_nil]
        rfl
      | succ d' =>
        rw [(ih (a + 1) _ _).2.1 (by omega)]
        first | rfl | (congr 1; omega)
    · intro nm hnm
      rw [hcons]
      simp only [List.foldl_cons, hstep]
      rw [(ih (a + 1) _ _).2.2.1 nm (fun j hj1 hj2 => hnm j (by omega) (by omega))]
      exact lookupFile_writeFile_ne fs _ src nm (hnm a (le_refl a) (by omega))
    · intro j hj1 hj2
      rw [hcons]
      simp only [List.foldl_cons, hstep]
      by_cases hja : j = a
      · subst hja
        rw [(ih (j + 1) _ _).2.2.1 (fileNameV base j ext)
          (fun j' hj'1 hj'2 => by
            intro he
            have := fileNameV_inj_ord base ext j j' he
            omega)]
        exact lookupFile_writeFile_self fs _ src
      · exact (ih (a + 1) _ _).2.2.2 j (by omega) (by omega)

theorem kindInfo_ffInfo (t : String) (base ext : Str) (isBin : Bool)
    (hk : kindInfo t = some (base, ext, isBin)) :
    ffInfo t = some (base, ext) ∧ ¬ (t = "en_video" ∨ t = "hi_video") := by
  unfold kindInfo at hk
  split_ifs at hk with e1 e2 e3 e4 e5 e6 <;>
    (injection hk with hk
     simp only [Prod.mk.injEq] at hk
     obtain ⟨hb, he, hbb⟩ := hk
     subst_vars
     exact ⟨rfl, by decide⟩)

/-- C1 counterexample: with two `en_text` versions (contents "A" and "B")
and `latest` restored to ordinal 1, the current latest ordinal is `c = 2`
and `fast_forward` to 3 succeeds — but the content stored at ordinal 3 is
the content of the restored `latest` (ordinal 1, "A"), not the content of
ordinal `c = 2` ("B"). -/
theorem fast_forward_copies_latest_not_ordinal_c :
    get_latest_version_number
      ⟨some [("en_text", ⟨toL "final_text_en_v1.txt",
        [⟨toL "final_text_en_v1.txt", toL "t1", none⟩,
         ⟨toL "final_text_en_v2.txt", toL "t2", none⟩]⟩)],
       [(toL "final_text_en_v1.txt", toL "A"),
        (toL "final_text_en_v2.txt", toL "B")]⟩ "en_text" = 2 ∧
    (fast_forward_version
      ⟨some [("en_text", ⟨toL "final_text_en_v1.txt",
        [⟨toL "final_text_en_v1.txt", toL "t1", none⟩,
         ⟨toL "final_text_en_v2.txt", toL "t2", none⟩]⟩)],
       [(toL "final_text_en_v1.txt", toL "A"),
        (toL "final_text_en_v2.txt", toL "B")]⟩ "en_text" 3
      (toL "fast-forward") (toL "t3")).1 = true ∧
    lookupFile (fast_forward_version
      ⟨some [("en_text", ⟨toL "final_text_en_v1.txt",
        [⟨toL "final_text_en_v1.txt", toL "t1", none⟩,
         ⟨toL "final_text_en_v2.txt", toL "t2", none⟩]⟩)],
       [(toL "final_text_en_v1.txt", toL "A"),
        (toL "final_text_en_v2.txt", toL "B")]⟩ "en_text" 3
      (toL "fast-forward") (toL "t3")).2.files (toL "final_text_en_v3.txt")
      = some (toL "A") ∧
    lookupFile
      [(toL "final_text_en_v1.txt", toL "A"),
       (toL "final_text_en_v2.txt", toL "B")] (toL "final_text_en_v2.txt")
      = some (toL "B") ∧
    toL "A" ≠ toL "B" := by
  refine ⟨by decide, by decide, by decide, by decide, by decide⟩

/-- C1 amended: for the six metadata-tracked kinds, with current latest
ordinal `c = len(versions) ≥ 1` and target `t > c`, provided the recorded
`latest` file exists on disk, `fast_forward` returns true and afterwards the
latest ordinal and the version count both equal the target and the content
stored at the target ordinal is byte-identical to the content of the file
recorded as `latest` at the time of the call (which is ordinal `c`'s content
whenever `latest` has not been restored to an older ordinal); with target
`≤` the current latest ordinal it returns false and appends nothing, for
every kind. -/
theorem fast_forward_convergence_amended (s : PageState) (t : String)
    (target : Nat) (mdl now : Str) :
    (target ≤ get_latest_version_number s t →
      fast_forward_version s t target mdl now = (false, s)) ∧
    (∀ base ext isBin vh, kindInfo t = some (base, ext, isBin) →
      lookupK (load_version_metadata s) t = some vh →
      1 ≤ vh.versions.length → vh.versions.length < target →
      vh.latest ≠ [] → existsFile s.files vh.latest = true →
      (fast_forward_version s t target mdl now).1 = true ∧
      get_version_count (fast_forward_version s t target mdl now).2 t = target ∧
      get_latest_version_number (fast_forward_version s t target mdl now).2 t = target ∧
      ((lookupK (load_version_metadata (fast_forward_version s t target mdl now).2) t).getD emptyVH).latest
        = fileNameV base target ext ∧
      lookupFile (fast_forward_version s t target mdl now).2.files (fileNameV base target ext)
        = lookupFile s.files vh.latest) := by
  constructor
  · intro hle
    simp only [fast_forward_version]
    by_cases h0 : get_latest_version_number s t = 0
    · rw [if_pos h0]
    · rw [if_neg h0, if_pos hle]
  · intro base ext isBin vh hk hvh hc ht hlat hex
    obtain ⟨hffi, hnotvid⟩ := kindInfo_ffInfo t base ext isBin hk
    have hcur : get_latest_version_number s t = vh.versions.length := by
      unfold get_latest_version_number
      rw [if_neg hnotvid]
      unfold get_version_count get_all_versions
      rw [hvh]
      rfl
    have hpath : get_latest_version_path s t = some vh.latest := by
      unfold get_latest_version_path
      rw [hvh]
      simp [hlat]
    have hsome : (lookupK (load_version_metadata s) t).isSome = true := by
      simp [hvh]
    obtain ⟨srcContent, hsrc⟩ :=
      Option.isSome_iff_exists.mp (show (lookupFile s.files vh.latest).isSome = true by
        unfold lookupFile
        unfold existsFile at hex
        rcases Option.isSome_iff_exists.mp hex with ⟨e, he⟩
        rw [he]
        rfl)
    have heq : fast_forward_version s t target mdl now =
        (true, ⟨some (updateKind (load_version_metadata s) t
            (((List.range' (vh.versions.length + 1) (target - vh.versions.length)).foldl
              (ffStep base ext srcContent now mdl) (s.files, vh)).2)),
          ((List.range' (vh.versions.length + 1) (target - vh.versions.length)).foldl
            (ffStep base ext srcContent now mdl) (s.files, vh)).1⟩) := by
      simp only [fast_forward_version]
      rw [hcur, if_neg (by omega), if_neg (by omega), if_neg hnotvid, hpath]
      simp only [hex, if_true, hffi]
      rw [hsome]
      simp only [if_true, hvh, Option.getD_some, hsrc]
      rfl
    have hspec := ffLoop_spec base ext srcContent now mdl
      (target - vh.versions.length) (vh.versions.length + 1) s.files vh
    refine ⟨?_, ?_, ?_, ?_, ?_⟩
    · rw [heq]
    · rw [heq]
      unfold get_version_count get_all_versions
      rw [load_save' _ _ (reqComplete_updateKind _ _ _ (reqComplete_load s))]
      rw [lookupK_updateKind_self _ _ _ hsome]
      simp only [Option.getD_some]
      rw [hspec.1]
      simp only [List.length_append, List.length_map, List.length_range']
      omega
    · rw [heq]
      unfold get_latest_version_number
      rw [if_neg hnotvid]
      unfold get_version_count get_all_versions
      rw [load_save' _ _ (reqComplete_updateKind _ _ _ (reqComplete_load s))]
      rw [lookupK_updateKind_self _ _ _ hsome]
      simp only [Option.getD_some]
      rw [hspec.1]
      simp only [List.length_append, List.length_map, List.length_range']
      omega
    · rw [heq]
      simp only
      rw [load_save' _ _ (reqComplete_updateKind _ _ _ (reqComplete_load s))]
      rw [lookupK_updateKind_self _ _ _ hsome]
      simp only [Option.getD_some]
      rw [hspec.2.1 (by omega)]
      congr 1
      omega
    · rw [heq]
      simp only
      rw [hspec.2.2.2 target (by omega) (by omega), hsrc]

/-- Witness for C1's amended theorem: fast-forwarding a one-version
`en_text` store to ordinal 3 succeeds. -/
theorem fast_forward_convergence_amended_witness :
    (fast_forward_version
      ⟨some [("en_text", ⟨toL "final_text_en_v1.txt",
        [⟨toL "final_text_en_v1.txt", toL "t1", none⟩]⟩)],
       [(toL "final_text_en_v1.txt", toL "Hello")]⟩
      "en_text" 3 (toL "fast-forward") (toL "t2")).1 = true := by
  exact ((fast_forward_convergence_amended
    ⟨some [("en_text", ⟨toL "final_text_en_v1.txt",
      [⟨toL "final_text_en_v1.txt", toL "t1", none⟩]⟩)],
     [(toL "final_text_en_v1.txt", toL "Hello")]⟩
    "en_text" 3 (toL "fast-forward") (toL "t2")).2
    (toL "final_text_en") (toL ".txt") false
    ⟨toL "final_text_en_v1.txt", [⟨toL "final_text_en_v1.txt", toL "t1", none⟩]⟩
    (by rfl) (by decide) (by decide) (by decide) (by decide) (by decide)).1

/-- C5 counterexample: running the expected-version pass of
`get_workflow_status` over a unit holding a legacy flat file renames that
file to `_v1` and writes the metadata record — the query is not free of side
effects. -/
theorem workflow_query_mutates :
    (rewrittenExpectedVersion [⟨none, [(toL "final_text_en.txt", toL "hello")]⟩]
        (toL "t")).2
      ≠ [⟨none, [(toL "final_text_en.txt", toL "hello")]⟩] ∧
    lookupFile ((rewrittenExpectedVersion
        [⟨none, [(toL "final_text_en.txt", toL "hello")]⟩] (toL "t")).2.headD
        ⟨none, []⟩).files (toL "final_text_en.txt") = none ∧
    lookupFile ((rewrittenExpectedVersion
        [⟨none, [(toL "final_text_en.txt", toL "hello")]⟩] (toL "t")).2.headD
        ⟨none, []⟩).files (toL "final_text_en_v1.txt") = some (toL "hello") := by
  refine ⟨by decide, by decide, by decide⟩

theorem migrateLoop_noop (now : Str) (L : List (String × Str × Str × Str))
    (fs : FileStore) (md : Metadata)
    (h : ∀ e ∈ L, lookupFile fs e.2.1 = none) :
    L.foldl (migrateOne now) (fs, md) = (fs, md) := by
  induction L with
  | nil => rfl
  | cons e L ih =>
    obtain ⟨t, ln, b, ex⟩ := e
    rw [List.foldl_cons]
    have he : lookupFile fs ln = none := by
      simpa using h _ (List.mem_cons_self _ L)
    rw [show migrateOne now (fs, md) (t, ln, b, ex) = (fs, md) by
      unfold migrateOne
      simp only
      rw [he]]
    exact ih (fun e' he' => h e' (List.mem_cons_of_mem _ he'))

theorem migrate_noop (s : PageState) (now : Str) (md : Metadata)
    (hmf : s.metaFile = some md) (hreq : reqComplete md)
    (h : ∀ e ∈ legacyFiles, lookupFile s.files e.2.1 = none) :
    migrate_legacy_files s now = s := by
  have hload : load_version_metadata s = md := by
    unfold load_version_metadata
    rw [hmf]
    exact ensureRequired_eq_self md hreq
  simp only [migrate_legacy_files]
  rw [hload, migrateLoop_noop now legacyFiles s.files md h]
  unfold save_version_metadata
  cases s with
  | mk mf fs =>
    simp only at hmf ⊢
    rw [hmf]

theorem rewritten_fold (now : Str) (pages : List PageState)
    (h : ∀ p ∈ pages, migrate_legacy_files p now = p) :
    ∀ (m : Nat) (acc : List PageState),
    pages.foldl
      (fun acc p =>
        let p' := migrate_legacy_files p now
        (max acc.1 (pageMaxTextAudio p'), acc.2 ++ [p']))
      (m, acc)
      = (pages.foldl (fun mx p => max mx (pageMaxTextAudio p)) m, acc ++ pages) := by
  induction pages with
  | nil => intro m acc; simp
  | cons p ps ih =>
    intro m acc
    rw [List.foldl_cons, List.foldl_cons]
    simp only [h p (List.mem_cons_self p ps)]
    rw [ih (fun p' hp' => h p' (List.mem_cons_of_mem p hp')) (max m (pageMaxTextAudio p)) (acc ++ [p])]
    rw [List.append_assoc]
    rfl

/-- C5 amended: the expected-version pass of `get_workflow_status` is not
side-effect free in general — it performs legacy migration and always
rewrites the metadata file.  Once every unit's metadata file exists with all
required kinds present and no legacy flat file remains, the pass leaves
every metadata file and every version file unchanged, and two consecutive
runs with no intervening mutation return the same expected version. -/
theorem workflow_query_pure_amended (pages : List PageState) (now now2 : Str)
    (h : ∀ p ∈ pages, (∃ md, p.metaFile = some md ∧ reqComplete md) ∧
      ∀ e ∈ legacyFiles, lookupFile p.files e.2.1 = none) :
    (rewrittenExpectedVersion pages now).2 = pages ∧
    (rewrittenExpectedVersion (rewrittenExpectedVersion pages now).2 now2).1
      = (rewrittenExpectedVersion pages now).1 := by
  have hmig : ∀ (nw : Str), ∀ p ∈ pages, migrate_legacy_files p nw = p := by
    intro nw p hp
    obtain ⟨⟨md, hmf, hreq⟩, hleg⟩ := h p hp
    exact migrate_noop p nw md hmf hreq hleg
  have h1 : rewrittenExpectedVersion pages now
      = (pages.foldl (fun mx p => max mx (pageMaxTextAudio p)) 0, pages) := by
    unfold rewrittenExpectedVersion
    rw [rewritten_fold now pages (hmig now) 0 []]
    rfl
  have h2 : rewrittenExpectedVersion pages now2
      = (pages.foldl (fun mx p => max mx (pageMaxTextAudio p)) 0, pages) := by
    unfold rewrittenExpectedVersion
    rw [rewritten_fold now2 pages (hmig now2) 0 []]
    rfl
  constructor
  · rw [h1]
  · rw [h1]
    simp only
    rw [h2]

/-- Witness for C5's amended theorem: a unit with a complete metadata file
and no legacy files is untouched by the query. -/
theorem workflow_query_pure_amended_witness :
    (rewrittenExpectedVersion
      [⟨some (requiredTypes.map (fun k => (k, emptyVH))), []⟩] (toL "t") ).2
      = [⟨some (requiredTypes.map (fun k => (k, emptyVH))), []⟩] := by
  exact (workflow_query_pure_amended
    [⟨some (requiredTypes.map (fun k => (k, emptyVH))), []⟩] (toL "t") (toL "u")
    (by
      intro p hp
      simp only [List.mem_singleton] at hp
      subst hp
      exact ⟨⟨requiredTypes.map (fun k => (k, emptyVH)), rfl,
        by unfold reqComplete; decide⟩, by decide⟩)).1

theorem splitNL_ne_nil (s : Str) : splitNL s ≠ [] := by
  cases s with
  | nil => simp [splitNL]
  | cons c rest =>
    unfold splitNL
    by_cases hc : c = '\n'
    · simp [hc]
    · rw [if_neg hc]
      cases splitNL rest <;> simp

theorem splitNL_chunk (a b : Str) (ha : '\n' ∉ a) :
    splitNL (a ++ '\n' :: b) = a :: splitNL b := by
  induction a with
  | nil =>
    simp only [List.nil_append]
    conv_lhs => unfold splitNL
    rw [if_pos rfl]
  | cons c a' ih =>
    have hc : c ≠ '\n' := fun h => ha (h ▸ List.mem_cons_self c a')
    have ha' : '\n' ∉ a' := fun h => ha (List.mem_cons_of_mem c h)
    simp only [List.cons_append]
    conv_lhs => unfold splitNL
    rw [if_neg hc, ih ha']

theorem joinNL_splitNL (s : Str) : joinNL (splitNL s) = s := by
  induction s with
  | nil => rfl
  | cons c rest ih =>
    unfold splitNL
    by_cases hc : c = '\n'
    · rw [if_pos hc]
      cases hs : splitNL rest with
      | nil => exact absurd hs (splitNL_ne_nil rest)
      | cons l ls =>
        rw [show joinNL ([] :: l :: ls) = [] ++ '\n' :: joinNL (l :: ls) from rfl]
        rw [← hs, ih, hc]
        rfl
    · rw [if_neg hc]
      cases hs : splitNL rest with
      | nil => exact absurd hs (splitNL_ne_nil rest)
      | cons l ls =>
        cases ls with
        | nil =>
          rw [show joinNL [c :: l] = c :: l from rfl]
          have : joinNL (splitNL rest) = rest := ih
          rw [hs] at this
          rw [show joinNL [l] = l from rfl] at this
          rw [this]
        | cons l2 ls2 =>
          rw [show joinNL ((c :: l) :: l2 :: ls2) = (c :: l) ++ '\n' :: joinNL (l2 :: ls2) from rfl]
          have : joinNL (splitNL rest) = rest := ih
          rw [hs] at this
          rw [show joinNL (l :: l2 :: ls2) = l ++ '\n' :: joinNL (l2 :: ls2) from rfl] at this
          simp only [List.cons_append, List.cons.injEq, true_and]
          exact this

theorem dropWhile_append_singleton {p : Char → Bool} (l : Str) (c : Char)
    (hc : p c = false) : (l ++ [c]).dropWhile p = l.dropWhile p ++ [c] := by
  rw [List.dropWhile_append]
  split
  · rename_i hemp
    rw [List.isEmpty_iff] at hemp
    rw [hemp]
    simp [List.dropWhile, hc]
  · rfl

theorem stripL_cons (c : Char) (xs : Str) (hc : isPyWS c = false) :
    stripL (c :: xs) = c :: (xs.reverse.dropWhile isPyWS).reverse := by
  unfold stripL
  rw [List.dropWhile_cons_of_neg (by simp [hc])]
  rw [List.reverse_cons, dropWhile_append_singleton _ _ hc]
  rw [List.reverse_append]
  rfl

theorem stripL_self_concat (p : Str) (h : stripL p = p) (hne : p ≠ []) :
    ∃ q w, p = q ++ [w] ∧ isPyWS w = false := by
  rcases List.eq_nil_or_concat p with rfl | ⟨q, w, rfl⟩
  · exact absurd rfl hne
  simp only [List.concat_eq_append] at h hne ⊢
  refine ⟨q, w, rfl, ?_⟩
  by_contra hw
  rw [Bool.not_eq_false] at hw
  have hlen : (stripL (q ++ [w])).length = (q ++ [w]).length := by rw [h]
  unfold stripL at hlen
  rw [List.dropWhile_append] at hlen
  by_cases hemp : (q.dropWhile isPyWS).isEmpty
  · rw [if_pos hemp] at hlen
    rw [show List.dropWhile isPyWS [w] = [] by simp [List.dropWhile, hw]] at hlen
    simp at hlen
  · rw [if_neg hemp] at hlen
    rw [show (q.dropWhile isPyWS ++ [w]).reverse = w :: (q.dropWhile isPyWS).reverse by
      rw [List.reverse_append]; rfl] at hlen
    rw [List.dropWhile_cons_of_pos (by simp [hw])] at hlen
    have h1 : (((q.dropWhile isPyWS).reverse.dropWhile isPyWS).reverse).length
        ≤ (q.dropWhile isPyWS).length := by
      rw [List.length_reverse]
      calc ((q.dropWhile isPyWS).reverse.dropWhile isPyWS).length
          ≤ (q.dropWhile isPyWS).reverse.length := (List.dropWhile_sublist _).length_le
        _ = (q.dropWhile isPyWS).length := List.length_reverse _
    have h2 : (q.dropWhile isPyWS).length ≤ q.length := (List.dropWhile_sublist _).length_le
    simp only [List.length_append, List.length_singleton] at hlen
    omega

theorem stripL_sandwich (c : Char) (mid : Str) (w : Char) (trail : Str)
    (hc : isPyWS c = false) (hw : isPyWS w = false)
    (htrail : ∀ x ∈ trail, isPyWS x = true) :
    stripL (c :: (mid ++ [w] ++ trail)) = c :: (mid ++ [w]) := by
  unfold stripL
  rw [List.dropWhile_cons_of_neg (by simp [hc])]
  rw [show (c :: (mid ++ [w] ++ trail)).reverse
      = trail.reverse ++ w :: (mid.reverse ++ [c]) by
    simp [List.reverse_append]]
  rw [dropWhile_all_stop trail.reverse w _
    (fun x hx => htrail x (List.mem_reverse.mp hx)) hw]
  rw [show (w :: (mid.reverse ++ [c])).reverse = c :: (mid ++ [w]) by
    simp [List.reverse_append]]

theorem keptLine_hash (xs : Str) : keptLine ('#' :: xs) = false := by
  unfold keptLine
  rw [stripL_cons '#' xs (by decide)]
  simp [List.isPrefixOf]

theorem readPromptContent_bare (p : Str) (h : ¬ ['#'].isPrefixOf (stripL p) = true) :
    readPromptContent p = stripL p := by
  show (if ['#'].isPrefixOf (stripL p) = true
      then stripL (joinNL (List.filter keptLine (splitNL (stripL p))))
      else stripL p) = stripL p
  rw [if_neg h]

theorem readPromptContent_hash (p : Str) (h : ['#'].isPrefixOf (stripL p) = true) :
    readPromptContent p = stripL (joinNL (List.filter keptLine (splitNL (stripL p)))) := by
  show (if ['#'].isPrefixOf (stripL p) = true
      then stripL (joinNL (List.filter keptLine (splitNL (stripL p))))
      else stripL p) = _
  rw [if_pos h]

/-- C10 counterexample: for the bare image-to-video format, a prompt that
does not start with a hash but whose stripped form does — here `" #x"` — is
parsed through the metadata branch of `read_prompt_from_file` and comes back
empty instead of as its stripped self. -/
theorem prompt_roundtrip_strip_order :
    ¬ ['#'].isPrefixOf (toL " #x") = true ∧
    read_prompt_from_file (queue_image_to_video_prompt [] (toL " #x") 1).2
      (videoPromptName 1) = some [] ∧
    stripL (toL " #x") = toL "#x" ∧
    toL "#x" ≠ [] := by
  refine ⟨by decide, by decide, by decide, by decide⟩

/-- C10 amended: the image-to-video round trip returns the stripped prompt
for every prompt whose *stripped* form does not start with a hash; the
image-edit round trip returns the prompt exactly when the prompt equals its
own strip, none of its lines is blank after stripping, and no line starts
with a hash after stripping (the enqueue timestamp contains no newline). -/
theorem prompt_roundtrip_amended :
    (∀ (d : TaskDir) (p : Str) (tv : Nat),
      ¬ ['#'].isPrefixOf (stripL p) = true →
      read_prompt_from_file (queue_image_to_video_prompt d p tv).2 (videoPromptName tv)
        = some (stripL p)) ∧
    (∀ (d : TaskDir) (p : Str) (tv : Nat) (now : Str),
      '\n' ∉ now →
      stripL p = p →
      (∀ l ∈ splitNL p, stripL l ≠ [] ∧ ¬ ['#'].isPrefixOf (stripL l) = true) →
      read_prompt_from_file (queue_image_edit_prompt d p tv now).2 (editPromptName tv)
        = some p) := by
  constructor
  · intro d p tv h
    unfold read_prompt_from_file queue_image_to_video_prompt
    simp only
    rw [lookupFile_writeFile_self]
    show some (readPromptContent p) = some (stripL p)
    rw [readPromptContent_bare p h]
  · intro d p tv now hnow hstrip hlines
    have hpne : p ≠ [] := by
      intro h
      subst h
      have := hlines [] (by simp [splitNL])
      exact this.1 rfl
    obtain ⟨q, w, hpqw, hw⟩ := stripL_self_concat p hstrip hpne
    have d0 : toL "# Image Edit Prompt for v" = '#' :: toL " Image Edit Prompt for v" := rfl
    have d1 : toL "\x0a# Queued at: " = '\n' :: toL "# Queued at: " := rfl
    have d2 : toL "\x0a# Status: PENDING\x0a\x0a"
        = '\n' :: (toL "# Status: PENDING" ++ ['\n', '\n']) := rfl
    have hshape : editPromptContent tv now p
        = '#' :: ((toL " Image Edit Prompt for v" ++ natChars tv ++
            '\n' :: (toL "# Queued at: " ++ now ++
              '\n' :: (toL "# Status: PENDING" ++ '\n' :: '\n' :: q))) ++ [w] ++ ['\n']) := by
      unfold editPromptContent
      rw [hpqw, d0, d1, d2]
      simp [List.append_assoc]
    have hstripc : stripL (editPromptContent tv now p)
        = '#' :: ((toL " Image Edit Prompt for v" ++ natChars tv ++
            '\n' :: (toL "# Queued at: " ++ now ++
              '\n' :: (toL "# Status: PENDING" ++ '\n' :: '\n' :: q))) ++ [w]) := by
      rw [hshape]
      exact stripL_sandwich '#' _ w ['\n'] (by decide) hw (by decide)
    have hback : '#' :: ((toL " Image Edit Prompt for v" ++ natChars tv ++
            '\n' :: (toL "# Queued at: " ++ now ++
              '\n' :: (toL "# Status: PENDING" ++ '\n' :: '\n' :: q))) ++ [w])
        = (toL "# Image Edit Prompt for v" ++ natChars tv) ++
            '\n' :: ((toL "# Queued at: " ++ now) ++
              '\n' :: (toL "# Status: PENDING" ++ '\n' :: '\n' :: p)) := by
      rw [hpqw, d0]
      simp [List.append_assoc]
    have hP0 : '\n' ∉ toL "# Image Edit Prompt for v" ++ natChars tv := by
      intro hm
      rcases List.mem_append.mp hm with hm | hm
      · revert hm
        decide
      · exact ((digit_ne_special _ (natChars_all_digit tv _ hm)).2.1 rfl).elim
    have hP1 : '\n' ∉ toL "# Queued at: " ++ now := by
      intro hm
      rcases List.mem_append.mp hm with hm | hm
      · revert hm
        decide
      · exact hnow hm
    have hsplit : splitNL (stripL (editPromptContent tv now p))
        = (toL "# Image Edit Prompt for v" ++ natChars tv) ::
          (toL "# Queued at: " ++ now) ::
          toL "# Status: PENDING" :: [] :: splitNL p := by
      rw [hstripc, hback]
      rw [splitNL_chunk _ _ hP0, splitNL_chunk _ _ hP1]
      rw [show toL "# Status: PENDING" ++ '\n' :: '\n' :: p
          = toL "# Status: PENDING" ++ '\n' :: ('\n' :: p) from rfl]
      rw [splitNL_chunk _ _ (by decide)]
      rw [show splitNL ('\n' :: p) = [] :: splitNL p by
        conv_lhs => unfold splitNL
        rw [if_pos rfl]]
    have hc0 : keptLine (toL "# Image Edit Prompt for v" ++ natChars tv) = false := by
      rw [show toL "# Image Edit Prompt for v" ++ natChars tv
          = '#' :: (toL " Image Edit Prompt for v" ++ natChars tv) by
        rw [d0]; rfl]
      exact keptLine_hash _
    have hc1 : keptLine (toL "# Queued at: " ++ now) = false := by
      rw [show toL "# Queued at: " ++ now = '#' :: (toL " Queued at: " ++ now) from rfl]
      exact keptLine_hash _
    have hc2 : keptLine (toL "# Status: PENDING") = false := by decide
    have hce : keptLine ([] : Str) = false := by decide
    have hkeep : ∀ l ∈ splitNL p, keptLine l = true := by
      intro l hl
      obtain ⟨h1, h2⟩ := hlines l hl
      unfold keptLine
      rw [Bool.and_eq_true, Bool.not_eq_true', Bool.not_eq_true']
      constructor
      · exact Bool.not_eq_true _ ▸ (by simpa using h2)
      · simpa [List.isEmpty_iff] using h1
    unfold read_prompt_from_file queue_image_edit_prompt
    simp only
    rw [lookupFile_writeFile_self]
    show some (readPromptContent (editPromptContent tv now p)) = some p
    rw [readPromptContent_hash _ (by rw [hstripc]; simp [List.isPrefixOf])]
    rw [hsplit]
    rw [List.filter_cons_of_neg (by simp [hc0]), List.filter_cons_of_neg (by simp [hc1]),
      List.filter_cons_of_neg (by simp [hc2]), List.filter_cons_of_neg (by simp [hce])]
    rw [List.filter_eq_self.mpr hkeep]
    rw [joinNL_splitNL, hstrip]

/-- Witness for C10's amended theorem: both round trips at concrete
prompts. -/
theorem prompt_roundtrip_amended_witness :
    read_prompt_from_file
      (queue_image_to_video_prompt [] (toL "  Pan across the sky ") 2).2
      (videoPromptName 2) = some (toL "Pan across the sky") ∧
    read_prompt_from_file
      (queue_image_edit_prompt [] (toL "Make it blue") 2 (toL "2024-10-24T01:30:00")).2
      (editPromptName 2) = some (toL "Make it blue") := by
  constructor
  · rw [prompt_roundtrip_amended.1 [] (toL "  Pan across the sky ") 2 (by decide)]
    decide
  · exact prompt_roundtrip_amended.2 [] (toL "Make it blue") 2 (toL "2024-10-24T01:30:00")
      (by decide) (by decide) (by decide)

theorem replaceAux_congr (pat new : Str) (f1 : Nat) :
    ∀ (f2 : Nat) (s : Str), s.length ≤ f1 → s.length ≤ f2 →
    replaceAux pat new f1 s = replaceAux pat new f2 s := by
  induction f1 with
  | zero =>
    intro f2 s h1 h2
    have : s = [] := List.length_eq_zero.mp (by omega)
    subst this
    cases f2 <;> rfl
  | succ f1 ih =>
    intro f2 s h1 h2
    cases s with
    | nil => cases f2 <;> rfl
    | cons c rest =>
      cases f2 with
      | zero => simp at h2
      | succ f2 =>
        show (if pat ≠ [] ∧ pat.isPrefixOf (c :: rest)
            then new ++ replaceAux pat new f1 (rest.drop (pat.length - 1))
            else c :: replaceAux pat new f1 rest)
          = (if pat ≠ [] ∧ pat.isPrefixOf (c :: rest)
            then new ++ replaceAux pat new f2 (rest.drop (pat.length - 1))
            else c :: replaceAux pat new f2 rest)
        by_cases hm : pat ≠ [] ∧ pat.isPrefixOf (c :: rest)
        · rw [if_pos hm, if_pos hm]
          rw [ih f2 (rest.drop (pat.length - 1))
            (by simp only [List.length_drop]; simp at h1; omega)
            (by simp only [List.length_drop]; simp at h2; omega)]
        · rw [if_neg hm, if_neg hm]
          rw [ih f2 rest (by simp at h1; omega) (by simp at h2; omega)]

theorem replaceL_cons_eq (pat new : Str) (c : Char) (rest : Str) :
    replaceL pat new (c :: rest) =
      if pat ≠ [] ∧ pat.isPrefixOf (c :: rest)
      then new ++ replaceL pat new (rest.drop (pat.length - 1))
      else c :: replaceL pat new rest := by
  unfold replaceL
  show (if pat ≠ [] ∧ pat.isPrefixOf (c :: rest)
      then new ++ replaceAux pat new rest.length (rest.drop (pat.length - 1))
      else c :: replaceAux pat new rest.length rest) = _
  by_cases hm : pat ≠ [] ∧ pat.isPrefixOf (c :: rest)
  · rw [if_pos hm, if_pos hm]
    rw [replaceAux_congr pat new rest.length (rest.drop (pat.length - 1)).length
      (rest.drop (pat.length - 1)) (by simp) (le_refl _)]
  · rw [if_neg hm, if_neg hm]

theorem replaceL_cons_of_neg (pat new : Str) (c : Char) (rest : Str)
    (h : ¬ pat.isPrefixOf (c :: rest) = true) :
    replaceL pat new (c :: rest) = c :: replaceL pat new rest := by
  rw [replaceL_cons_eq, if_neg (fun hm => h hm.2)]

theorem replaceL_hash_skip (pat new : Str) (pt : Str) (hpat : pat = '#' :: pt) :
    ∀ (a b : Str), '#' ∉ a → replaceL pat new (a ++ b) = a ++ replaceL pat new b := by
  intro a
  induction a with
  | nil => intro b _; simp
  | cons c a' ih =>
    intro b ha
    have hc : c ≠ '#' := fun h => ha (h ▸ List.mem_cons_self c a')
    have ha' : '#' ∉ a' := fun h => ha (List.mem_cons_of_mem c h)
    rw [List.cons_append]
    rw [replaceL_cons_of_neg pat new c (a' ++ b)
      (by rw [hpat]; simp [List.isPrefixOf, Ne.symm hc])]
    rw [ih b ha']
    rfl

theorem replaceL_match_head (pat new : Str) (pt : Str) (hpat : pat = '#' :: pt) (b : Str) :
    replaceL pat new (pat ++ b) = new ++ replaceL pat new b := by
  subst hpat
  rw [List.cons_append, replaceL_cons_eq]
  rw [if_pos ⟨by simp, by rw [← List.cons_append]; rw [List.isPrefixOf_iff_prefix]; exact List.prefix_append _ _⟩]
  simp only [List.length_cons, Nat.add_sub_cancel]
  rw [List.drop_left]

theorem mem_insertName (a x : Str) (l : List Str) :
    a ∈ insertName x l ↔ a = x ∨ a ∈ l := by
  induction l with
  | nil => simp [insertName]
  | cons y ys ih =>
    unfold insertName
    by_cases h : lexLe x y
    · rw [if_pos h]
      simp
    · rw [if_neg h]
      simp only [List.mem_cons, ih]
      tauto

theorem mem_sortNames (a : Str) (l : List Str) : a ∈ sortNames l ↔ a ∈ l := by
  induction l with
  | nil => simp [sortNames]
  | cons x xs ih =>
    unfold sortNames
    rw [mem_insertName, ih]
    simp

theorem mem_get_queued_prompts (dir : TaskDir) (ptype : String) (pre nm : Str)
    (hstem : promptStem ptype = some pre) :
    (nm ∈ (get_queued_prompts dir ptype).getD []
      ↔ nm ∈ dir.map Prod.fst ∧ globTxt pre nm = true) := by
  unfold get_queued_prompts
  rw [hstem]
  simp only [Option.getD_some]
  rw [mem_sortNames]
  rw [List.mem_filter]

theorem withSuffix_after_txt (stem newSuf : Str) :
    withSuffix (stem ++ toL ".txt") newSuf = stem ++ newSuf := by
  have hr : (stem ++ toL ".txt").reverse = 't' :: 'x' :: 't' :: '.' :: stem.reverse := by
    rw [List.reverse_append]
    rfl
  simp only [withSuffix, hr]
  rw [List.takeWhile_cons, List.takeWhile_cons, List.takeWhile_cons, List.takeWhile_cons]
  simp only [decide_eq_true_eq, if_pos (by decide : ('t' : Char) ≠ '.'),
    if_pos (by decide : ('x' : Char) ≠ '.'), if_neg (by decide : ¬ ('.' : Char) ≠ '.')]
  rw [if_neg (by simp)]
  simp

theorem globTxt_canonical (pre mid : Str) : globTxt pre (pre ++ mid ++ toL ".txt") = true := by
  unfold globTxt
  rw [show pre ++ mid ++ toL ".txt" = pre ++ (mid ++ toL ".txt") by simp [List.append_assoc]]
  rw [show (pre.isPrefixOf (pre ++ (mid ++ toL ".txt"))) = true by
    rw [List.isPrefixOf_iff_prefix]
    exact List.prefix_append _ _]
  rw [show ((toL ".txt").isSuffixOf (pre ++ (mid ++ toL ".txt"))) = true by
    rw [List.isSuffixOf_iff_suffix]
    rw [show pre ++ (mid ++ toL ".txt") = (pre ++ mid) ++ toL ".txt" by simp [List.append_assoc]]
    exact List.suffix_append _ _]
  have h4 : (toL ".txt").length = 4 := rfl
  simp only [Bool.true_and, Bool.and_self, decide_eq_true_eq, List.length_append, h4]
  omega

theorem globTxt_archived (pre X suf : Str)
    (hsuf : suf = toL ".completed" ∨ suf = toL ".failed") :
    globTxt pre (X ++ suf) = false := by
  have hsfx : ((toL ".txt").isSuffixOf (X ++ suf)) = false := by
    show ((toL ".txt").reverse.isPrefixOf (X ++ suf).reverse) = false
    rw [List.reverse_append]
    rw [show (toL ".txt").reverse = 't' :: toL "xt." by decide]
    rcases hsuf with rfl | rfl
    · rw [show (toL ".completed").reverse = 'd' :: toL "etelpmoc." by decide]
      simp [List.isPrefixOf]
    · rw [show (toL ".failed").reverse = 'd' :: toL "eliaf." by decide]
      simp [List.isPrefixOf]
  unfold globTxt
  rw [hsfx]
  simp

theorem mem_fst_writeFile (fs : FileStore) (nm c : Str) :
    nm ∈ (writeFile fs nm c).map Prod.fst := by
  unfold writeFile
  split
  · rename_i hex
    unfold existsFile at hex
    rcases Option.isSome_iff_exists.mp hex with ⟨e, he⟩
    have hmem := List.mem_of_find?_eq_some he
    have heq : (e.1 == nm) = true := by
      have := List.find?_some he
      simpa using this
    rw [List.map_map]
    refine List.mem_map.mpr ⟨e, hmem, ?_⟩
    simp only [Function.comp_apply]
    rw [if_pos heq]
  · simp

theorem lookupFile_removeFile_self (fs : FileStore) (nm : Str) :
    lookupFile (removeFile fs nm) nm = none := by
  unfold removeFile
  rw [lookupFile_filter (fun x => x != nm) fs nm]
  simp

/-- C6 counterexample: an image-to-video task is a queued task (it appears
in the pending lister), yet after `mark_prompt_as_processing` its file
carries no `# Status:` marker at all — its parsed status is `none`, not
PROCESSING, because the bare prompt format never contained the
`# Status: PENDING` line the mark function rewrites. -/
theorem task_claim_leaves_video_without_status :
    videoPromptName 1 ∈
      (get_queued_prompts (queue_image_to_video_prompt [] (toL "Pan across") 1).2
        "image_to_video").getD [] ∧
    (mark_prompt_as_processing (queue_image_to_video_prompt [] (toL "Pan across") 1).2
      (videoPromptName 1) (toL "t2")).1 = true ∧
    taskStatus ((lookupFile
      (mark_prompt_as_processing (queue_image_to_video_prompt [] (toL "Pan across") 1).2
        (videoPromptName 1) (toL "t2")).2 (videoPromptName 1)).getD [])
      = none := by
  refine ⟨by decide, by decide, by decide⟩

theorem editContent_shape (tv : Nat) (now p : Str) :
    editPromptContent tv now p
      = '#' :: ((toL " Image Edit Prompt for v" ++ natChars tv) ++
          '\n' :: ('#' :: ((toL " Queued at: " ++ now) ++
            '\n' :: (statusPending ++ '\n' :: '\n' :: (p ++ ['\n']))))) := by
  unfold editPromptContent
  rw [show toL "# Image Edit Prompt for v" = '#' :: toL " Image Edit Prompt for v" from rfl]
  rw [show toL "\x0a# Queued at: " = '\n' :: '#' :: toL " Queued at: " from rfl]
  rw [show toL "\x0a# Status: PENDING\x0a\x0a" = '\n' :: (statusPending ++ ['\n', '\n']) from rfl]
  simp [List.append_assoc]

theorem statusLine_imageLine (tv : Nat) :
    statusLine ('#' :: (toL " Image Edit Prompt for v" ++ natChars tv)) = none := by
  unfold statusLine
  rw [if_neg ?_]
  rw [show toL "# Status: " = '#' :: ' ' :: 'S' :: toL "tatus: " from rfl]
  rw [show toL " Image Edit Prompt for v" = ' ' :: 'I' :: toL "mage Edit Prompt for v" from rfl]
  simp [List.isPrefixOf]

theorem statusLine_queuedLine (now : Str) :
    statusLine ('#' :: (toL " Queued at: " ++ now)) = none := by
  unfold statusLine
  rw [if_neg ?_]
  rw [show toL "# Status: " = '#' :: ' ' :: 'S' :: toL "tatus: " from rfl]
  rw [show toL " Queued at: " = ' ' :: 'Q' :: toL "ueued at: " from rfl]
  simp [List.isPrefixOf]

theorem taskStatus_editContent (tv : Nat) (now p : Str)
    (hnow : '\n' ∉ now) :
    taskStatus (editPromptContent tv now p) = some (toL "PENDING") := by
  have hM0 : '\n' ∉ toL " Image Edit Prompt for v" ++ natChars tv := by
    intro hm
    rcases List.mem_append.mp hm with hm | hm
    · revert hm
      decide
    · exact ((digit_ne_special _ (natChars_all_digit tv _ hm)).2.1 rfl).elim
  have hM1 : '\n' ∉ toL " Queued at: " ++ now := by
    intro hm
    rcases List.mem_append.mp hm with hm | hm
    · revert hm
      decide
    · exact hnow hm
  unfold taskStatus
  rw [editContent_shape]
  rw [show ('#' :: ((toL " Image Edit Prompt for v" ++ natChars tv) ++
        '\n' :: ('#' :: ((toL " Queued at: " ++ now) ++
          '\n' :: (statusPending ++ '\n' :: '\n' :: (p ++ ['\n']))))))
      = ('#' :: (toL " Image Edit Prompt for v" ++ natChars tv)) ++
        '\n' :: (('#' :: (toL " Queued at: " ++ now)) ++
          '\n' :: (statusPending ++ '\n' :: ('\n' :: (p ++ ['\n'])))) from rfl]
  rw [splitNL_chunk _ _ (by simpa using hM0), splitNL_chunk _ _ (by simpa using hM1),
    splitNL_chunk _ _ (by decide)]
  rw [List.findSome?_cons, statusLine_imageLine, List.findSome?_cons, statusLine_queuedLine,
    List.findSome?_cons]
  rw [show statusLine statusPending = some (toL "PENDING") by decide]

theorem replaceL_editContent (tv : Nat) (now p : Str)
    (hnowh : '#' ∉ now) :
    replaceL statusPending statusProcessing (editPromptContent tv now p)
      = '#' :: ((toL " Image Edit Prompt for v" ++ natChars tv) ++
          '\n' :: ('#' :: ((toL " Queued at: " ++ now) ++
            '\n' :: (statusProcessing ++ '\n' ::
              replaceL statusPending statusProcessing ('\n' :: (p ++ ['\n'])))))) := by
  have hM0 : '#' ∉ toL " Image Edit Prompt for v" ++ natChars tv := by
    intro hm
    rcases List.mem_append.mp hm with hm | hm
    · revert hm
      decide
    · exact ((digit_ne_special _ (natChars_all_digit tv _ hm)).1 rfl).elim
  have hM1 : '#' ∉ toL " Queued at: " ++ now := by
    intro hm
    rcases List.mem_append.mp hm with hm | hm
    · revert hm
      decide
    · exact hnowh hm
  have hpt : statusPending = '#' :: toL " Status: PENDING" := rfl
  rw [editContent_shape]
  rw [replaceL_cons_of_neg _ _ _ _ (by
    rw [hpt]
    rw [show toL " Image Edit Prompt for v" = ' ' :: 'I' :: toL "mage Edit Prompt for v" from rfl]
    rw [show toL " Status: PENDING" = ' ' :: 'S' :: toL "tatus: PENDING" from rfl]
    simp [List.isPrefixOf])]
  rw [replaceL_hash_skip statusPending statusProcessing _ hpt _ _ hM0]
  rw [replaceL_cons_of_neg _ _ _ _ (by rw [hpt]; simp [List.isPrefixOf])]
  rw [replaceL_cons_of_neg _ _ _ _ (by
    rw [hpt]
    rw [show toL " Queued at: " = ' ' :: 'Q' :: toL "ueued at: " from rfl]
    rw [show toL " Status: PENDING" = ' ' :: 'S' :: toL "tatus: PENDING" from rfl]
    simp [List.isPrefixOf])]
  rw [replaceL_hash_skip statusPending statusProcessing _ hpt _ _ hM1]
  rw [replaceL_cons_of_neg _ _ _ _ (by rw [hpt]; simp [List.isPrefixOf])]
  rw [show statusPending ++ '\n' :: '\n' :: (p ++ ['\n'])
      = statusPending ++ ('\n' :: '\n' :: (p ++ ['\n'])) from rfl]
  rw [replaceL_match_head statusPending statusProcessing _ hpt]
  rw [replaceL_cons_of_neg _ _ _ _ (by rw [hpt]; simp [List.isPrefixOf])]

theorem taskStatus_marked_editContent (tv : Nat) (now p ts2 : Str)
    (hnow : '\n' ∉ now) (hnowh : '#' ∉ now) :
    taskStatus (replaceL statusPending statusProcessing (editPromptContent tv now p)
      ++ toL "\x0a# Processing started: " ++ ts2 ++ ['\n']) = some (toL "PROCESSING") := by
  have hM0 : '\n' ∉ toL " Image Edit Prompt for v" ++ natChars tv := by
    intro hm
    rcases List.mem_append.mp hm with hm | hm
    · revert hm
      decide
    · exact ((digit_ne_special _ (natChars_all_digit tv _ hm)).2.1 rfl).elim
  have hM1 : '\n' ∉ toL " Queued at: " ++ now := by
    intro hm
    rcases List.mem_append.mp hm with hm | hm
    · revert hm
      decide
    · exact hnow hm
  rw [replaceL_editContent tv now p hnowh]
  rw [show ('#' :: ((toL " Image Edit Prompt for v" ++ natChars tv) ++
        '\n' :: ('#' :: ((toL " Queued at: " ++ now) ++
          '\n' :: (statusProcessing ++ '\n' ::
            replaceL statusPending statusProcessing ('\n' :: (p ++ ['\n'])))))))
      ++ toL "\x0a# Processing started: " ++ ts2 ++ ['\n']
      = ('#' :: (toL " Image Edit Prompt for v" ++ natChars tv)) ++
        '\n' :: (('#' :: (toL " Queued at: " ++ now)) ++
          '\n' :: (statusProcessing ++ '\n' ::
            (replaceL statusPending statusProcessing ('\n' :: (p ++ ['\n'])) ++
              (toL "\x0a# Processing started: " ++ (ts2 ++ ['\n'])))))
      by simp [List.append_assoc]]
  unfold taskStatus
  rw [splitNL_chunk _ _ (by simpa using hM0), splitNL_chunk _ _ (by simpa using hM1),
    splitNL_chunk _ _ (by decide)]
  rw [List.findSome?_cons, statusLine_imageLine, List.findSome?_cons, statusLine_queuedLine,
    List.findSome?_cons]
  rw [show statusLine statusProcessing = some (toL "PROCESSING") by decide]

theorem statusLine_no_hash (l : Str) (hl : '#' ∉ l) : statusLine l = none := by
  unfold statusLine
  rw [if_neg (fun hpre => hl ((List.isPrefixOf_iff_prefix.mp hpre).subset (by decide)))]

theorem statusLine_procStarted (ts : Str) :
    statusLine (toL "# Processing started: " ++ ts) = none := by
  unfold statusLine
  rw [if_neg ?_]
  rw [show toL "# Status: " = '#' :: ' ' :: 'S' :: toL "tatus: " from rfl]
  rw [show toL "# Processing started: " = '#' :: ' ' :: 'P' :: toL "rocessing started: "
    from rfl]
  simp [List.isPrefixOf]

theorem mem_splitNL_subset (s : Str) : ∀ l ∈ splitNL s, ∀ c ∈ l, c ∈ s := by
  induction s with
  | nil =>
    intro l hl c hc
    simp only [splitNL, List.mem_singleton] at hl
    subst hl
    simp at hc
  | cons a rest ih =>
    intro l hl c hc
    unfold splitNL at hl
    by_cases ha : a = '\n'
    · rw [if_pos ha] at hl
      rcases List.mem_cons.mp hl with rfl | hl
      · simp at hc
      · exact List.mem_cons_of_mem a (ih l hl c hc)
    · rw [if_neg ha] at hl
      cases hs : splitNL rest with
      | nil => exact absurd hs (splitNL_ne_nil rest)
      | cons l0 ls =>
        rw [hs] at hl
        rcases List.mem_cons.mp hl with rfl | hl
        · rcases List.mem_cons.mp hc with rfl | hc
          · exact List.mem_cons_self _ _
          · exact List.mem_cons_of_mem a
              (ih l0 (by rw [hs]; exact List.mem_cons_self l0 ls) c hc)
        · exact List.mem_cons_of_mem a
            (ih l (by rw [hs]; exact List.mem_cons_of_mem l0 hl) c hc)

theorem splitNL_cons_nl (a : Str) : splitNL ('\n' :: a) = [] :: splitNL a := by
  conv_lhs => unfold splitNL
  rw [if_pos rfl]

theorem splitNL_cons_of_ne (c : Char) (a : Str) (hc : c ≠ '\n') :
    splitNL (c :: a) = match splitNL a with
      | [] => [[c]]
      | l :: ls => (c :: l) :: ls := by
  conv_lhs => unfold splitNL
  rw [if_neg hc]

theorem splitNL_append_nl (a b : Str) :
    splitNL (a ++ '\n' :: b) = splitNL a ++ splitNL b := by
  induction a with
  | nil =>
    simp only [List.nil_append]
    rw [splitNL_cons_nl]
    rfl
  | cons c a' ih =>
    rw [List.cons_append]
    by_cases hc : c = '\n'
    · subst hc
      rw [splitNL_cons_nl (a' ++ '\n' :: b), splitNL_cons_nl a', ih]
      rfl
    · rw [splitNL_cons_of_ne c (a' ++ '\n' :: b) hc, splitNL_cons_of_ne c a' hc, ih]
      cases hs : splitNL a' with
      | nil => exact absurd hs (splitNL_ne_nil a')
      | cons l ls => rfl

theorem findSome?_statusLine_none (ls : List Str) (h : ∀ l ∈ ls, statusLine l = none) :
    ls.findSome? statusLine = none := by
  induction ls with
  | nil => rfl
  | cons l ls ih =>
    rw [List.findSome?_cons, h l (List.mem_cons_self l ls)]
    exact ih (fun x hx => h x (List.mem_cons_of_mem l hx))

theorem replaceL_no_hash (q : Str) (hq : '#' ∉ q) :
    replaceL statusPending statusProcessing q = q := by
  have h := replaceL_hash_skip statusPending statusProcessing (toL " Status: PENDING")
    rfl q [] hq
  rw [List.append_nil] at h
  rw [show replaceL statusPending statusProcessing [] = [] from rfl] at h
  rw [List.append_nil] at h
  exact h

theorem taskStatus_marked_bare (q ts : Str) (hq : '#' ∉ q) (hts : '\n' ∉ ts) :
    taskStatus (replaceL statusPending statusProcessing q ++
      toL "\x0a# Processing started: " ++ ts ++ ['\n']) = none := by
  rw [replaceL_no_hash q hq]
  rw [show q ++ toL "\x0a# Processing started: " ++ ts ++ ['\n']
      = q ++ '\n' :: ((toL "# Processing started: " ++ ts) ++ '\n' :: ([] : Str)) by
    rw [show toL "\x0a# Processing started: " = '\n' :: toL "# Processing started: "
      from rfl]
    simp [List.append_assoc]]
  unfold taskStatus
  rw [splitNL_append_nl]
  rw [splitNL_chunk (toL "# Processing started: " ++ ts) [] (by
    intro hm
    rcases List.mem_append.mp hm with hm | hm
    · revert hm
      decide
    · exact hts hm)]
  rw [show splitNL ([] : Str) = [([] : Str)] from rfl]
  apply findSome?_statusLine_none
  intro l hl
  rcases List.mem_append.mp hl with hl | hl
  · exact statusLine_no_hash l (fun hcl => hq (mem_splitNL_subset q l hl '#' hcl))
  · rcases List.mem_cons.mp hl with rfl | hl
    · exact statusLine_procStarted ts
    · rcases List.mem_cons.mp hl with rfl | hl
      · rfl
      · exact absurd hl (List.not_mem_nil l)

/-- C6 amended: for image-edit tasks (which carry the `# Status:` metadata
lines) the lifecycle holds for every prompt: the task is created PENDING and
listed as pending; after claim its status marker reads PROCESSING; after
complete or fail the file is renamed to
`<name>.txt.completed`/`<name>.txt.failed`, the original name is gone, and
the archived name never again matches the pending lister's pattern in any
directory.  Image-to-video tasks are stored as the bare prompt with no
status marker added by the queue; claiming one rewrites only marker text
already present in the prompt itself, so a prompt containing no `#` still
has no status after claim; and they are archived by the same renames and
equally excluded from the lister.  Timestamps are single-line `#`-free
strings. -/
theorem task_lifecycle_amended (d : TaskDir) (p q : Str) (tv : Nat)
    (now ts2 ts3 ts4 err : Str)
    (hnow : '\n' ∉ now) (hnowh : '#' ∉ now) (hq : '#' ∉ q) (hts2 : '\n' ∉ ts2) :
    (editPromptName tv ∈
      (get_queued_prompts (queue_image_edit_prompt d p tv now).2 "image_edit").getD []) ∧
    taskStatus (editPromptContent tv now p) = some (toL "PENDING") ∧
    ((mark_prompt_as_processing (queue_image_edit_prompt d p tv now).2
        (editPromptName tv) ts2).1 = true ∧
      taskStatus ((lookupFile (mark_prompt_as_processing (queue_image_edit_prompt d p tv now).2
        (editPromptName tv) ts2).2 (editPromptName tv)).getD [])
        = some (toL "PROCESSING")) ∧
    ((mark_prompt_as_completed (queue_image_edit_prompt d p tv now).2
        (editPromptName tv) ts3).1 = true ∧
      lookupFile (mark_prompt_as_completed (queue_image_edit_prompt d p tv now).2
        (editPromptName tv) ts3).2 (editPromptName tv) = none ∧
      (∀ dir2 : TaskDir, (toL "image_edit_prompt_for_v" ++ natChars tv) ++ toL ".txt.completed" ∉
        (get_queued_prompts dir2 "image_edit").getD [])) ∧
    ((mark_prompt_as_failed (queue_image_edit_prompt d p tv now).2
        (editPromptName tv) err ts4).1 = true ∧
      lookupFile (mark_prompt_as_failed (queue_image_edit_prompt d p tv now).2
        (editPromptName tv) err ts4).2 (editPromptName tv) = none ∧
      (∀ dir2 : TaskDir, (toL "image_edit_prompt_for_v" ++ natChars tv) ++ toL ".txt.failed" ∉
        (get_queued_prompts dir2 "image_edit").getD [])) ∧
    (videoPromptName tv ∈
      (get_queued_prompts (queue_image_to_video_prompt d q tv).2 "image_to_video").getD [] ∧
      lookupFile (queue_image_to_video_prompt d q tv).2 (videoPromptName tv) = some q) ∧
    ((mark_prompt_as_processing (queue_image_to_video_prompt d q tv).2
        (videoPromptName tv) ts2).1 = true ∧
      taskStatus ((lookupFile (mark_prompt_as_processing (queue_image_to_video_prompt d q tv).2
        (videoPromptName tv) ts2).2 (videoPromptName tv)).getD []) = none) ∧
    ((mark_prompt_as_completed (queue_image_to_video_prompt d q tv).2
        (videoPromptName tv) ts3).1 = true ∧
      lookupFile (mark_prompt_as_completed (queue_image_to_video_prompt d q tv).2
        (videoPromptName tv) ts3).2 (videoPromptName tv) = none ∧
      (∀ dir2 : TaskDir,
        (toL "image_to_video_prompt_for_v" ++ natChars tv) ++ toL ".txt.completed" ∉
          (get_queued_prompts dir2 "image_to_video").getD [])) ∧
    ((mark_prompt_as_failed (queue_image_to_video_prompt d q tv).2
        (videoPromptName tv) err ts4).1 = true ∧
      lookupFile (mark_prompt_as_failed (queue_image_to_video_prompt d q tv).2
        (videoPromptName tv) err ts4).2 (videoPromptName tv) = none ∧
      (∀ dir2 : TaskDir,
        (toL "image_to_video_prompt_for_v" ++ natChars tv) ++ toL ".txt.failed" ∉
          (get_queued_prompts dir2 "image_to_video").getD [])) := by
  have hname : editPromptName tv
      = (toL "image_edit_prompt_for_v" ++ natChars tv) ++ toL ".txt" := by
    unfold editPromptName
    simp [List.append_assoc]
  have hlook : lookupFile (queue_image_edit_prompt d p tv now).2 (editPromptName tv)
      = some (editPromptContent tv now p) := by
    unfold queue_image_edit_prompt
    simp only
    exact lookupFile_writeFile_self _ _ _
  have harchc : withSuffix (editPromptName tv) (toL ".txt.completed")
      = (toL "image_edit_prompt_for_v" ++ natChars tv) ++ toL ".txt.completed" := by
    rw [hname, withSuffix_after_txt]
  have harchf : withSuffix (editPromptName tv) (toL ".txt.failed")
      = (toL "image_edit_prompt_for_v" ++ natChars tv) ++ toL ".txt.failed" := by
    rw [hname, withSuffix_after_txt]
  have hnec : (toL "image_edit_prompt_for_v" ++ natChars tv) ++ toL ".txt.completed"
      ≠ editPromptName tv := by
    rw [hname]
    intro h
    have := congrArg List.length h
    simp only [List.length_append] at this
    rw [show (toL ".txt.completed").length = 14 from rfl,
      show (toL ".txt").length = 4 from rfl] at this
    omega
  have hnef : (toL "image_edit_prompt_for_v" ++ natChars tv) ++ toL ".txt.failed"
      ≠ editPromptName tv := by
    rw [hname]
    intro h
    have := congrArg List.length h
    simp only [List.length_append] at this
    rw [show (toL ".txt.failed").length = 11 from rfl,
      show (toL ".txt").length = 4 from rfl] at this
    omega
  have hnamev : videoPromptName tv
      = (toL "image_to_video_prompt_for_v" ++ natChars tv) ++ toL ".txt" := by
    unfold videoPromptName
    simp [List.append_assoc]
  have hlookv : lookupFile (queue_image_to_video_prompt d q tv).2 (videoPromptName tv)
      = some q := by
    unfold queue_image_to_video_prompt
    simp only
    exact lookupFile_writeFile_self _ _ _
  have harchcv : withSuffix (videoPromptName tv) (toL ".txt.completed")
      = (toL "image_to_video_prompt_for_v" ++ natChars tv) ++ toL ".txt.completed" := by
    rw [hnamev, withSuffix_after_txt]
  have harchfv : withSuffix (videoPromptName tv) (toL ".txt.failed")
      = (toL "image_to_video_prompt_for_v" ++ natChars tv) ++ toL ".txt.failed" := by
    rw [hnamev, withSuffix_after_txt]
  have hnecv : (toL "image_to_video_prompt_for_v" ++ natChars tv) ++ toL ".txt.completed"
      ≠ videoPromptName tv := by
    rw [hnamev]
    intro h
    have := congrArg List.length h
    simp only [List.length_append] at this
    rw [show (toL ".txt.completed").length = 14 from rfl,
      show (toL ".txt").length = 4 from rfl] at this
    omega
  have hnefv : (toL "image_to_video_prompt_for_v" ++ natChars tv) ++ toL ".txt.failed"
      ≠ videoPromptName tv := by
    rw [hnamev]
    intro h
    have := congrArg List.length h
    simp only [List.length_append] at this
    rw [show (toL ".txt.failed").length = 11 from rfl,
      show (toL ".txt").length = 4 from rfl] at this
    omega
  have hstemv : promptStem "image_to_video" = some (toL "image_to_video_prompt_for_v") := by
    decide
  refine ⟨?_, taskStatus_editContent tv now p hnow, ⟨?_, ?_⟩, ⟨?_, ?_, ?_⟩, ⟨?_, ?_, ?_⟩,
    ⟨?_, hlookv⟩, ⟨?_, ?_⟩, ⟨?_, ?_, ?_⟩, ⟨?_, ?_, ?_⟩⟩
  · rw [mem_get_queued_prompts _ "image_edit" (toL "image_edit_prompt_for_v") _ rfl]
    constructor
    · unfold queue_image_edit_prompt
      simp only
      exact mem_fst_writeFile _ _ _
    · rw [hname]
      rw [show (toL "image_edit_prompt_for_v" ++ natChars tv) ++ toL ".txt"
          = toL "image_edit_prompt_for_v" ++ natChars tv ++ toL ".txt" by
        simp [List.append_assoc]]
      exact globTxt_canonical _ _
  · unfold mark_prompt_as_processing
    rw [hlook]
  · unfold mark_prompt_as_processing
    rw [hlook]
    simp only
    rw [lookupFile_writeFile_self]
    simp only [Option.getD_some]
    rw [show replaceL statusPending statusProcessing (editPromptContent tv now p) ++
        toL "\x0a# Processing started: " ++ ts2 ++ ['\n']
        = replaceL statusPending statusProcessing (editPromptContent tv now p) ++
          toL "\x0a# Processing started: " ++ (ts2 ++ ['\n']) by simp [List.append_assoc]]
    rw [show replaceL statusPending statusProcessing (editPromptContent tv now p) ++
        toL "\x0a# Processing started: " ++ (ts2 ++ ['\n'])
        = replaceL statusPending statusProcessing (editPromptContent tv now p) ++
          toL "\x0a# Processing started: " ++ ts2 ++ ['\n'] by simp [List.append_assoc]]
    exact taskStatus_marked_editContent tv now p ts2 hnow hnowh
  · unfold mark_prompt_as_completed
    rw [hlook]
  · unfold mark_prompt_as_completed
    rw [hlook]
    simp only
    rw [harchc]
    rw [lookupFile_writeFile_ne _ _ _ _ (Ne.symm hnec)]
    exact lookupFile_removeFile_self _ _
  · intro dir2 hmem
    rw [mem_get_queued_prompts _ "image_edit" (toL "image_edit_prompt_for_v") _ rfl] at hmem
    have hb := hmem.2
    rw [show (toL "image_edit_prompt_for_v" ++ natChars tv) ++ toL ".txt.completed"
        = ((toL "image_edit_prompt_for_v" ++ natChars tv) ++ toL ".txt") ++ toL ".completed" by
      rw [show toL ".txt.completed" = toL ".txt" ++ toL ".completed" from rfl]
      simp [List.append_assoc]] at hb
    rw [globTxt_archived _ _ _ (Or.inl rfl)] at hb
    exact Bool.noConfusion hb
  · unfold mark_prompt_as_failed
    rw [hlook]
  · unfold mark_prompt_as_failed
    rw [hlook]
    simp only
    rw [harchf]
    rw [lookupFile_writeFile_ne _ _ _ _ (Ne.symm hnef)]
    exact lookupFile_removeFile_self _ _
  · intro dir2 hmem
    rw [mem_get_queued_prompts _ "image_edit" (toL "image_edit_prompt_for_v") _ rfl] at hmem
    have hb := hmem.2
    rw [show (toL "image_edit_prompt_for_v" ++ natChars tv) ++ toL ".txt.failed"
        = ((toL "image_edit_prompt_for_v" ++ natChars tv) ++ toL ".txt") ++ toL ".failed" by
      rw [show toL ".txt.failed" = toL ".txt" ++ toL ".failed" from rfl]
      simp [List.append_assoc]] at hb
    rw [globTxt_archived _ _ _ (Or.inr rfl)] at hb
    exact Bool.noConfusion hb
  · rw [mem_get_queued_prompts _ "image_to_video" (toL "image_to_video_prompt_for_v") _ hstemv]
    constructor
    · unfold queue_image_to_video_prompt
      simp only
      exact mem_fst_writeFile _ _ _
    · rw [hnamev]
      rw [show (toL "image_to_video_prompt_for_v" ++ natChars tv) ++ toL ".txt"
          = toL "image_to_video_prompt_for_v" ++ natChars tv ++ toL ".txt" by
        simp [List.append_assoc]]
      exact globTxt_canonical _ _
  · unfold mark_prompt_as_processing
    rw [hlookv]
  · unfold mark_prompt_as_processing
    rw [hlookv]
    simp only
    rw [lookupFile_writeFile_self]
    simp only [Option.getD_some]
    exact taskStatus_marked_bare q ts2 hq hts2
  · unfold mark_prompt_as_completed
    rw [hlookv]
  · unfold mark_prompt_as_completed
    rw [hlookv]
    simp only
    rw [harchcv]
    rw [lookupFile_writeFile_ne _ _ _ _ (Ne.symm hnecv)]
    exact lookupFile_removeFile_self _ _
  · intro dir2 hmem
    rw [mem_get_queued_prompts _ "image_to_video" (toL "image_to_video_prompt_for_v") _ hstemv]
      at hmem
    have hb := hmem.2
    rw [show (toL "image_to_video_prompt_for_v" ++ natChars tv) ++ toL ".txt.completed"
        = ((toL "image_to_video_prompt_for_v" ++ natChars tv) ++ toL ".txt")
          ++ toL ".completed" by
      rw [show toL ".txt.completed" = toL ".txt" ++ toL ".completed" from rfl]
      simp [List.append_assoc]] at hb
    rw [globTxt_archived _ _ _ (Or.inl rfl)] at hb
    exact Bool.noConfusion hb
  · unfold mark_prompt_as_failed
    rw [hlookv]
  · unfold mark_prompt_as_failed
    rw [hlookv]
    simp only
    rw [harchfv]
    rw [lookupFile_writeFile_ne _ _ _ _ (Ne.symm hnefv)]
    exact lookupFile_removeFile_self _ _
  · intro dir2 hmem
    rw [mem_get_queued_prompts _ "image_to_video" (toL "image_to_video_prompt_for_v") _ hstemv]
      at hmem
    have hb := hmem.2
    rw [show (toL "image_to_video_prompt_for_v" ++ natChars tv) ++ toL ".txt.failed"
        = ((toL "image_to_video_prompt_for_v" ++ natChars tv) ++ toL ".txt")
          ++ toL ".failed" by
      rw [show toL ".txt.failed" = toL ".txt" ++ toL ".failed" from rfl]
      simp [List.append_assoc]] at hb
    rw [globTxt_archived _ _ _ (Or.inr rfl)] at hb
    exact Bool.noConfusion hb

/-- Witness for C6's amended theorem at a concrete image-edit task and a
concrete image-to-video task. -/
theorem task_lifecycle_amended_witness :
    taskStatus (editPromptContent 3 (toL "2024-10-24T01:30:00") (toL "Brighten the image"))
      = some (toL "PENDING") :=
  (task_lifecycle_amended [] (toL "Brighten the image") (toL "Pan across the scene") 3
    (toL "2024-10-24T01:30:00") (toL "ta") (toL "tb") (toL "tc") (toL "err")
    (by decide) (by decide) (by decide) (by decide)).2.1

theorem mem_writeFile_names (fs : FileStore) (nm c : Str) (x : Str × Str)
    (hx : x ∈ writeFile fs nm c) : x.1 = nm ∨ x.1 ∈ fs.map Prod.fst := by
  unfold writeFile at hx
  split at hx
  · rcases List.mem_map.mp hx with ⟨e, he, hxe⟩
    by_cases h : (e.1 == nm) = true
    · rw [if_pos h] at hxe
      left
      rw [← hxe]
    · rw [if_neg h] at hxe
      right
      rw [← hxe]
      exact List.mem_map.mpr ⟨e, he, rfl⟩
  · rcases List.mem_append.mp hx with he | he
    · right
      exact List.mem_map.mpr ⟨x, he, rfl⟩
    · left
      simp only [List.mem_singleton] at he
      rw [he]

theorem ffLoop_names (base ext src now mdl : Str) (d : Nat) :
    ∀ (a : Nat) (fs : FileStore) (vh : VHist) (x : Str × Str),
    x ∈ ((List.range' a d).foldl (ffStep base ext src now mdl) (fs, vh)).1 →
    x.1 ∈ fs.map Prod.fst ∨ ∃ j, x.1 = fileNameV base j ext := by
  induction d with
  | zero =>
    intro a fs vh x hx
    simp only [List.range'_zero, List.foldl_nil] at hx
    exact Or.inl (List.mem_map.mpr ⟨x, hx, rfl⟩)
  | succ d ih =>
    intro a fs vh x hx
    rw [show List.range' a (d + 1) = a :: List.range' (a + 1) d by
      simpa using List.range'_succ a d 1] at hx
    simp only [List.foldl_cons] at hx
    rcases ih (a + 1) _ _ x hx with hold | hnew
    · rcases List.mem_map.mp hold with ⟨e, he, hxe⟩
      rcases mem_writeFile_names fs (fileNameV base a ext) src e he with h1 | h1
      · exact Or.inr ⟨a, hxe ▸ h1⟩
      · exact Or.inl (hxe ▸ h1)
    · exact Or.inr hnew

theorem scanMax_zero (fs : FileStore) (b : Str)
    (h : ∀ e ∈ fs, videoOrd b e.1 = none) : scanMaxOrdinal fs b = 0 := by
  unfold scanMaxOrdinal
  induction fs with
  | nil => rfl
  | cons e fs ih =>
    rw [List.foldl_cons]
    rw [h e (List.mem_cons_self e fs)]
    exact ih (fun e' he' => h e' (List.mem_cons_of_mem e he'))

theorem ff_none_info (s : PageState) (t : String) (target : Nat) (mdl now : Str)
    (h : ffInfo t = none) :
    (fast_forward_version s t target mdl now).2 = s := by
  unfold fast_forward_version
  by_cases h0 : get_latest_version_number s t = 0
  · rw [if_pos h0]
  · rw [if_neg h0]
    by_cases h1 : target ≤ get_latest_version_number s t
    · rw [if_pos h1]
    · rw [if_neg h1]
      simp only [h]
      split <;> rfl

theorem videoOrd_none_of_noPre (pv nm : Str)
    (h : (pv ++ toL "_v").isPrefixOf nm = false) : videoOrd pv nm = none := by
  unfold videoOrd
  rw [if_neg (fun hand => by rw [h] at hand; exact Bool.noConfusion hand.1)]

theorem videoOrd_kind_none (t : String) (b e : Str) (isBin : Bool)
    (hk : kindInfo t = some (b, e, isBin)) (m : Nat) :
    videoOrd (toL "page_video_en") (fileNameV b m e) = none ∧
    videoOrd (toL "page_video_hi") (fileNameV b m e) = none := by
  unfold kindInfo at hk
  split_ifs at hk with e1 e2 e3 e4 e5 e6 <;>
    (injection hk with hk
     simp only [Prod.mk.injEq] at hk
     obtain ⟨hb, he, hbb⟩ := hk
     subst hb
     subst he
     constructor <;>
       (apply videoOrd_none_of_noPre
        first
          | rw [show toL "page_video_en" ++ toL "_v"
                = 'p' :: 'a' :: 'g' :: 'e' :: '_' :: 'v' :: toL "ideo_en_v" from rfl]
          | rw [show toL "page_video_hi" ++ toL "_v"
                = 'p' :: 'a' :: 'g' :: 'e' :: '_' :: 'v' :: toL "ideo_hi_v" from rfl]
        unfold fileNameV
        first
          | rw [show toL "final_text_en" = 'f' :: toL "inal_text_en" from rfl]
          | rw [show toL "final_text_hi" = 'f' :: toL "inal_text_hi" from rfl]
          | rw [show toL "image_to_use" = 'i' :: toL "mage_to_use" from rfl]
          | rw [show toL "page_image_video"
                = 'p' :: 'a' :: 'g' :: 'e' :: '_' :: 'i' :: toL "mage_video" from rfl]
        simp [List.isPrefixOf]))

theorem kindInfo_mem_required (t : String) (b e : Str) (isBin : Bool)
    (hk : kindInfo t = some (b, e, isBin)) : t ∈ requiredTypes := by
  unfold kindInfo at hk
  split_ifs at hk with e1 e2 e3 e4 e5 e6
  · subst e1; decide
  · subst e2; decide
  · subst e3; decide
  · subst e4; decide
  · subst e5; decide
  · subst e6; decide

theorem ffInfo_kindInfo (t : String) (b e : Str)
    (hffi : ffInfo t = some (b, e))
    (hvid : ¬ (t = "en_video" ∨ t = "hi_video")) :
    ∃ isBin, kindInfo t = some (b, e, isBin) := by
  unfold ffInfo at hffi
  split_ifs at hffi with e1 e2 e3 e4 e5 e6 e7 e8 <;>
    (injection hffi with hffi
     simp only [Prod.mk.injEq] at hffi
     obtain ⟨hb, he⟩ := hffi
     subst hb
     subst he
     first
       | (subst_vars; exact ⟨_, rfl⟩)
       | (subst_vars; exact absurd (by simp) hvid))

/-- The inductive invariant behind the ordinal-density property: for every
metadata-tracked kind the recorded file names are exactly the canonical
names of ordinals `1..len` in order; the two page-video kinds have empty
metadata histories; and no file on disk matches the page-video scan. -/
def densityInv (s : PageState) : Prop :=
  (∀ t b e isBin, kindInfo t = some (b, e, isBin) →
    ((lookupK (load_version_metadata s) t).getD emptyVH).versions.map (fun vi => vi.file)
      = (List.range' 1 ((lookupK (load_version_metadata s) t).getD emptyVH).versions.length).map
          (fun i => fileNameV b i e)) ∧
  (((lookupK (load_version_metadata s) "en_video").getD emptyVH).versions = [] ∧
   ((lookupK (load_version_metadata s) "hi_video").getD emptyVH).versions = []) ∧
  (∀ x ∈ s.files, videoOrd (toL "page_video_en") x.1 = none ∧
    videoOrd (toL "page_video_hi") x.1 = none)

theorem densityInv_init : densityInv ⟨none, []⟩ := by
  refine ⟨?_, ⟨by decide, by decide⟩, by simp⟩
  intro t b e isBin hk
  unfold kindInfo at hk
  split_ifs at hk with e1 e2 e3 e4 e5 e6 <;>
    (injection hk with hk
     simp only [Prod.mk.injEq] at hk
     obtain ⟨hb, he, hbb⟩ := hk
     subst hb
     subst he
     subst_vars
     decide)

theorem densityInv_create (s : PageState) (t : String) (content : Str)
    (mdl : Option Str) (now : Str) (h : densityInv s) :
    densityInv (create_new_version s t content mdl now).2 := by
  cases hk : kindInfo t with
  | none =>
    have hun : (create_new_version s t content mdl now).2 = s := by
      simp only [create_new_version, hk]
    rw [hun]
    exact h
  | some info =>
    obtain ⟨b, e, isBin⟩ := info
    have hin : t ∈ requiredTypes := kindInfo_mem_required t b e isBin hk
    have hsome : (lookupK (load_version_metadata s) t).isSome = true :=
      reqComplete_load s t hin
    obtain ⟨vh, hvh⟩ := Option.isSome_iff_exists.mp hsome
    have hnotvid : ¬ (t = "en_video" ∨ t = "hi_video") :=
      (kindInfo_ffInfo t b e isBin hk).2
    have heq : (create_new_version s t content mdl now).2 =
        ⟨some (updateKind (load_version_metadata s) t
          ⟨fileNameV b (vh.versions.length + 1) e,
            vh.versions ++ [⟨fileNameV b (vh.versions.length + 1) e, now, mdl⟩]⟩),
          writeFile s.files (fileNameV b (vh.versions.length + 1) e) content⟩ := by
      simp only [create_new_version, hk, hvh, Option.getD_some]
      rfl
    rw [heq]
    refine ⟨?_, ⟨?_, ?_⟩, ?_⟩
    · intro t' b' e' isBin' hk'
      rw [load_save' _ _ (reqComplete_updateKind _ _ _ (reqComplete_load s))]
      by_cases ht : t' = t
      · subst ht
        rw [hk] at hk'
        injection hk' with hk'
        simp only [Prod.mk.injEq] at hk'
        obtain ⟨hb', he', _⟩ := hk'
        subst hb'
        subst he'
        rw [lookupK_updateKind_self _ _ _ hsome]
        simp only [Option.getD_some]
        have h1 := h.1 t' b e isBin hk
        rw [hvh] at h1
        simp only [Option.getD_some] at h1
        rw [List.map_append, h1]
        simp only [List.length_append, List.map_cons, List.map_nil, List.length_cons,
          List.length_nil]
        rw [show vh.versions.length + (0 + 1) = vh.versions.length + 1 by omega]
        rw [show List.range' 1 (vh.versions.length + 1)
            = List.range' 1 vh.versions.length ++ [1 + 1 * vh.versions.length] from
          @List.range'_concat 1 1 vh.versions.length]
        rw [List.map_append]
        simp only [List.map_cons, List.map_nil]
        rw [show 1 + 1 * vh.versions.length = vh.versions.length + 1 by omega]
      · rw [lookupK_updateKind_ne _ _ _ _ ht]
        exact h.1 t' b' e' isBin' hk'
    · rw [load_save' _ _ (reqComplete_updateKind _ _ _ (reqComplete_load s))]
      rw [lookupK_updateKind_ne _ _ _ _ (fun hh => hnotvid (Or.inl hh.symm))]
      exact h.2.1.1
    · rw [load_save' _ _ (reqComplete_updateKind _ _ _ (reqComplete_load s))]
      rw [lookupK_updateKind_ne _ _ _ _ (fun hh => hnotvid (Or.inr hh.symm))]
      exact h.2.1.2
    · intro x hx
      rcases mem_writeFile_names _ _ _ x hx with hnew | hold
      · rw [hnew]
        exact videoOrd_kind_none t b e isBin hk (vh.versions.length + 1)
      · rcases List.mem_map.mp hold with ⟨x', hx', hfst⟩
        rw [← hfst]
        exact h.2.2 x' hx'

theorem densityInv_ff (s : PageState) (t : String) (target : Nat) (mdl now : Str)
    (h : densityInv s) : densityInv (fast_forward_version s t target mdl now).2 := by
  cases hffi : ffInfo t with
  | none =>
    rw [ff_none_info s t target mdl now hffi]
    exact h
  | some be =>
    obtain ⟨b, e⟩ := be
    by_cases hvid : t = "en_video" ∨ t = "hi_video"
    · have h0 : get_latest_version_number s t = 0 := by
        unfold get_latest_version_number
        rw [if_pos hvid]
        apply scanMax_zero
        intro x hx
        rcases hvid with rfl | rfl
        · rw [if_pos rfl]
          exact (h.2.2 x hx).1
        · rw [if_neg (by decide)]
          exact (h.2.2 x hx).2
      have hun : (fast_forward_version s t target mdl now).2 = s := by
        simp only [fast_forward_version]
        rw [h0, if_pos rfl]
      rw [hun]
      exact h
    · obtain ⟨isBin, hk⟩ := ffInfo_kindInfo t b e hffi hvid
      have hin := kindInfo_mem_required t b e isBin hk
      have hsome : (lookupK (load_version_metadata s) t).isSome = true :=
        reqComplete_load s t hin
      obtain ⟨vh, hvh⟩ := Option.isSome_iff_exists.mp hsome
      have hcur : get_latest_version_number s t = vh.versions.length := by
        unfold get_latest_version_number
        rw [if_neg hvid]
        unfold get_version_count get_all_versions
        rw [hvh]
        rfl
      by_cases h0 : vh.versions.length = 0
      · have hun : (fast_forward_version s t target mdl now).2 = s := by
          simp only [fast_forward_version]
          rw [hcur, if_pos h0]
        rw [hun]
        exact h
      · by_cases h1 : target ≤ vh.versions.length
        · have hun : (fast_forward_version s t target mdl now).2 = s := by
            simp only [fast_forward_version]
            rw [hcur, if_neg h0, if_pos h1]
          rw [hun]
          exact h
        · have hpath0 : get_latest_version_path s t
              = if vh.latest = [] then none else some vh.latest := by
            unfold get_latest_version_path
            rw [hvh]
          by_cases hlat : vh.latest = []
          · have hun : (fast_forward_version s t target mdl now).2 = s := by
              simp only [fast_forward_version]
              rw [hcur, if_neg h0, if_neg h1, if_neg hvid, hpath0, if_pos hlat]
            rw [hun]
            exact h
          · rw [if_neg hlat] at hpath0
            by_cases hex : existsFile s.files vh.latest = true
            · obtain ⟨src, hsrc⟩ :=
                Option.isSome_iff_exists.mp (show (lookupFile s.files vh.latest).isSome = true by
                  unfold lookupFile
                  unfold existsFile at hex
                  rcases Option.isSome_iff_exists.mp hex with ⟨x, hxx⟩
                  rw [hxx]
                  rfl)
              have heq : fast_forward_version s t target mdl now =
                  (true, ⟨some (updateKind (load_version_metadata s) t
                      (((List.range' (vh.versions.length + 1) (target - vh.versions.length)).foldl
                        (ffStep b e src now mdl) (s.files, vh)).2)),
                    ((List.range' (vh.versions.length + 1) (target - vh.versions.length)).foldl
                      (ffStep b e src now mdl) (s.files, vh)).1⟩) := by
                simp only [fast_forward_version]
                rw [hcur, if_neg h0, if_neg h1, if_neg hvid, hpath0]
                simp only [hex, if_true, hffi]
                rw [hsome]
                simp only [if_true, hvh, Option.getD_some, hsrc]
                rfl
              have hstate : (fast_forward_version s t target mdl now).2 =
                  ⟨some (updateKind (load_version_metadata s) t
                      (((List.range' (vh.versions.length + 1) (target - vh.versions.length)).foldl
                        (ffStep b e src now mdl) (s.files, vh)).2)),
                    ((List.range' (vh.versions.length + 1) (target - vh.versions.length)).foldl
                      (ffStep b e src now mdl) (s.files, vh)).1⟩ := by
                rw [heq]
              rw [hstate]
              have hspec := ffLoop_spec b e src now mdl
                (target - vh.versions.length) (vh.versions.length + 1) s.files vh
              refine ⟨?_, ⟨?_, ?_⟩, ?_⟩
              · intro t' b' e' isBin' hk'
                rw [load_save' _ _ (reqComplete_updateKind _ _ _ (reqComplete_load s))]
                by_cases ht : t' = t
                · subst ht
                  rw [hk] at hk'
                  injection hk' with hk'
                  simp only [Prod.mk.injEq] at hk'
                  obtain ⟨hb', he', _⟩ := hk'
                  subst hb'
                  subst he'
                  rw [lookupK_updateKind_self _ _ _ hsome]
                  simp only [Option.getD_some]
                  rw [hspec.1]
                  have hmain := h.1 t' b e isBin hk
                  rw [hvh] at hmain
                  simp only [Option.getD_some] at hmain
                  rw [List.map_append, hmain, List.map_map]
                  rw [show ((fun vi => vi.file) ∘
                      (fun j => (⟨fileNameV b j e, now, some mdl⟩ : VersionInfo)))
                      = fun j => fileNameV b j e from rfl]
                  rw [List.length_append, List.length_map, List.length_range']
                  rw [← List.map_append]
                  rw [show vh.versions.length + 1 = 1 + 1 * vh.versions.length by omega]
                  rw [List.range'_append 1 vh.versions.length (target - vh.versions.length) 1]
                  rw [show vh.versions.length + (target - vh.versions.length)
                      = (target - vh.versions.length) + vh.versions.length by omega]
                · rw [lookupK_updateKind_ne _ _ _ _ ht]
                  exact h.1 t' b' e' isBin' hk'
              · rw [load_save' _ _ (reqComplete_updateKind _ _ _ (reqComplete_load s))]
                rw [lookupK_updateKind_ne _ _ _ _ (fun hh => hvid (Or.inl hh.symm))]
                exact h.2.1.1
              · rw [load_save' _ _ (reqComplete_updateKind _ _ _ (reqComplete_load s))]
                rw [lookupK_updateKind_ne _ _ _ _ (fun hh => hvid (Or.inr hh.symm))]
                exact h.2.1.2
              · intro x hx
                rcases ffLoop_names b e src now mdl (target - vh.versions.length)
                    (vh.versions.length + 1) s.files vh x hx with hold | ⟨j, hj⟩
                · rcases List.mem_map.mp hold with ⟨x', hx', hfst⟩
                  rw [← hfst]
                  exact h.2.2 x' hx'
                · rw [hj]
                  exact videoOrd_kind_none t b e isBin hk j
            · have hun : (fast_forward_version s t target mdl now).2 = s := by
                simp only [fast_forward_version]
                rw [hcur, if_neg h0, if_neg h1, if_neg hvid, hpath0]
                simp only
                rw [if_neg hex]
              rw [hun]
              exact h

theorem reachable_densityInv (s : PageState) (h : Reachable s) : densityInv s := by
  induction h with
  | init => exact densityInv_init
  | create s' t content mdl now _ ih => exact densityInv_create s' t content mdl now ih
  | ff s' t target mdl now _ ih => exact densityInv_ff s' t target mdl now ih

/-- Sample state reached by two `create_new_version` calls from the empty page. -/
def sampleReached : PageState :=
  (create_new_version (create_new_version ⟨none, []⟩ "en_text" (toL "Hello") none
    (toL "2024-01-01")).2 "en_text" (toL "World") none (toL "2024-01-02")).2

/-- C2: for every state reachable from the empty page directory by any sequence
of `create_new_version` and `fast_forward_version` calls, and every asset kind,
the ordinals parsed from the file names of the records in `versions` are
exactly `1, 2, ..., len(versions)` in order: no gaps and no duplicates. -/
theorem ordinal_density (s : PageState) (h : Reachable s) (t : String)
    (ht : t ∈ requiredTypes) :
    ((lookupK (load_version_metadata s) t).getD emptyVH).versions.map
        (fun vi => parseOrdName vi.file)
      = (List.range' 1
          ((lookupK (load_version_metadata s) t).getD emptyVH).versions.length).map some := by
  have hinv := reachable_densityInv s h
  cases hki : kindInfo t with
  | some bei =>
    obtain ⟨b, e, isBin⟩ := bei
    have h1 := hinv.1 t b e isBin hki
    have h2 : ((lookupK (load_version_metadata s) t).getD emptyVH).versions.map
        (fun vi => parseOrdName vi.file)
        = (((lookupK (load_version_metadata s) t).getD emptyVH).versions.map
            (fun vi => vi.file)).map parseOrdName := by
      rw [List.map_map]
      rfl
    rw [h2, h1, List.map_map]
    apply List.map_congr_left
    intro i hi
    have h3 := (List.mem_range'_1.mp hi).1
    exact kindInfo_parse t b e isBin hki i h3
  | none =>
    have hvid : t = "en_video" ∨ t = "hi_video" := by
      unfold requiredTypes at ht
      simp only [List.mem_cons, List.not_mem_nil, or_false] at ht
      rcases ht with rfl | rfl | rfl | rfl | rfl | rfl | rfl | rfl <;>
        first
          | (exact absurd hki (by decide))
          | (exact Or.inl rfl)
          | (exact Or.inr rfl)
    rcases hvid with rfl | rfl
    · rw [hinv.2.1.1]
      rfl
    · rw [hinv.2.1.2]
      rfl

theorem ordinal_density_witness :
    "en_text" ∈ requiredTypes ∧
    (((lookupK (load_version_metadata sampleReached) "en_text").getD emptyVH).versions.map
        (fun vi => parseOrdName vi.file)
      = (List.range' 1 ((lookupK (load_version_metadata sampleReached)
            "en_text").getD emptyVH).versions.length).map some) :=
  ⟨by decide, ordinal_density sampleReached
    (Reachable.create _ _ _ _ _ (Reachable.create _ _ _ _ _ Reachable.init))
    "en_text" (by decide)⟩
